import Mathlib

/-!  Verification development for the taspaths geometric kernel (`src/libs/hull.h`
and the dijkstra unit test).  Real-valued quantities of the C++ source (IEEE
doubles) are modelled exactly: coordinates as exact fractions (`Frac`),
angles as real numbers. -/

namespace Geo

/-- An exact fraction: the model of the source's `t_real` (IEEE double)
coordinates.  All constructors keep the denominator positive and reduced
(`mkF`), so the cross-multiplication comparisons below are order-correct. -/
structure Frac where
  num : ℤ
  den : ℤ
  deriving DecidableEq, Repr

/-- Normalising constructor: positive reduced denominator. -/
def mkF (n d : ℤ) : Frac :=
  let n' := if d < 0 then -n else n
  let d' := if d < 0 then -d else d
  let g : ℤ := Int.gcd n' d'
  if g = 0 then ⟨0, 1⟩ else ⟨n' / g, d' / g⟩

instance : OfNat Frac n := ⟨⟨(n : ℤ), 1⟩⟩

def fneg (a : Frac) : Frac := ⟨-a.num, a.den⟩
def fadd (a b : Frac) : Frac := mkF (a.num * b.den + b.num * a.den) (a.den * b.den)
def fsub (a b : Frac) : Frac := fadd a (fneg b)
def fmul (a b : Frac) : Frac := mkF (a.num * b.num) (a.den * b.den)
def fdiv (a b : Frac) : Frac := mkF (a.num * b.den) (a.den * b.num)
def fabs (a : Frac) : Frac := ⟨|a.num|, a.den⟩

instance : Add Frac := ⟨fadd⟩
instance : Sub Frac := ⟨fsub⟩
instance : Mul Frac := ⟨fmul⟩
instance : Div Frac := ⟨fdiv⟩
instance : Neg Frac := ⟨fneg⟩

/-- Strict comparison by cross multiplication (denominators positive). -/
def fltB (a b : Frac) : Bool := a.num * b.den < b.num * a.den
def fleB (a b : Frac) : Bool := a.num * b.den ≤ b.num * a.den
/-- Value equality (structural equality coincides on `mkF`-normalised values,
but the semantic test is used wherever the source compares numbers). -/
def feqB (a b : Frac) : Bool := a.num * b.den = b.num * a.den
def fmax (a b : Frac) : Frac := if fltB a b then b else a

/-- 2D vector: the source's `t_vec` (two doubles). -/
abbrev Vec2 := Frac × Frac

def vadd (a b : Vec2) : Vec2 := (a.1 + b.1, a.2 + b.2)
def vsub (a b : Vec2) : Vec2 := (a.1 - b.1, a.2 - b.2)
def vneg (a : Vec2) : Vec2 := (-a.1, -a.2)
def vscale (s : Frac) (a : Vec2) : Vec2 := (s * a.1, s * a.2)
def vdivs (a : Vec2) (s : Frac) : Vec2 := (a.1 / s, a.2 / s)

/-- z-component of the 2D cross product. -/
def crossZ (a b : Vec2) : Frac := a.1 * b.2 - a.2 * b.1
/-- Squared euclidean norm (comparisons of `tl2::norm` values, which are
nonnegative, are equivalent to comparisons of the squares). -/
def normSq (a : Vec2) : Frac := a.1 * a.1 + a.2 * a.2
/-- Squared distance. -/
def distSq (a b : Vec2) : Frac := normSq (vsub a b)

/-- Modelled from the spec: `tl2::equals` on scalars of the external tlibs2
library: absolute difference within `eps`. -/
def equalsQ (a b eps : Frac) : Bool := fleB (fabs (a - b)) eps

/-- Modelled from the spec: `tl2::equals` on 2-vectors, componentwise. -/
def equalsV (a b : Vec2) (eps : Frac) : Bool := equalsQ a.1 b.1 eps && equalsQ a.2 b.2 eps

/-- Modelled from the spec: `side_of_line` of `src/libs/lines.h` (that header is
not under `src/`): the signed-area test `cross(b - a, p - a)`. -/
def side_of_line (a b p : Vec2) : Frac := crossZ (vsub b a) (vsub p a)

-- ---------------------------------------------------------------------------
-- delaunay triangulation: calc_delaunay_iterative (hull.h:938-1063) and its
-- helpers get_triag_sharing_edge (hull.h:838-870), is_conflicting_triag
-- (hull.h:876-888), flip_edge (hull.h:891-931).
-- ---------------------------------------------------------------------------

/-- A delaunay triangle (the source's vertex vector of size 3). -/
abbrev Tri := Vec2 × Vec2 × Vec2

/-- Triangle vertex by index mod 3 (the source indexes `% triags[i].size()`). -/
def triGet (t : Tri) (i : ℕ) : Vec2 :=
  match i % 3 with
  | 0 => t.1
  | 1 => t.2.1
  | _ => t.2.2

/-- List lookup with a default triangle (source accesses are always in range). -/
def tlistGet (ts : List Tri) (i : ℕ) : Tri := ts.getD i ((0, 0), (0, 0), (0, 0))

/-- Modelled from the spec: `calc_circumcentre` of the external tlibs2 library
("Voronoi vertices: 2D points equidistant from ≥ 3 sites"): the exact
circumcentre.  `none` models the NaN/Inf value computed for a degenerate
(collinear) triangle, for which every native float comparison is false. -/
def calc_circumcentre (t : Tri) : Option Vec2 :=
  let ax := t.1.1;   let ay := t.1.2
  let bx := t.2.1.1; let by' := t.2.1.2
  let cx := t.2.2.1; let cy := t.2.2.2
  let d : Frac := (2 : Frac) * (ax * (by' - cy) + bx * (cy - ay) + cx * (ay - by'))
  if feqB d 0 then none
  else
    let sqa := ax * ax + ay * ay
    let sqb := bx * bx + by' * by'
    let sqc := cx * cx + cy * cy
    some ((sqa * (by' - cy) + sqb * (cy - ay) + sqc * (ay - by')) / d,
          (sqa * (cx - bx) + sqb * (ax - cx) + sqc * (bx - ax)) / d)

/-- `is_conflicting_triag` (hull.h:876-888): is `pt` strictly inside the
circumscribed circle of the triangle (`dist < rad`, compared via squares)? -/
def is_conflicting_triag (t : Tri) (pt : Vec2) : Bool :=
  match calc_circumcentre t with
  | none => false
  | some c => fltB (distSq pt c) (distSq t.1 c)

/-- `get_triag_sharing_edge` (hull.h:838-870): the first triangle `≠ cur`
sharing the edge `(v1, v2)` up to `eps`, with the source's index bookkeeping. -/
def get_triag_sharing_edge (triags : List Tri) (v1 v2 : Vec2) (cur : ℕ) (eps : Frac) :
    Option (ℕ × ℕ × ℕ × ℕ) :=
  go 0 triags
where
  go (i : ℕ) : List Tri → Option (ℕ × ℕ × ℕ × ℕ)
  | [] => none
  | t :: rest =>
    if i = cur then go (i + 1) rest
    else if equalsV t.1 v1 eps && equalsV t.2.1 v2 eps then some (i, 0, 1, 2)
    else if equalsV t.2.1 v1 eps && equalsV t.1 v2 eps then some (i, 1, 0, 2)
    else if equalsV t.1 v1 eps && equalsV t.2.2 v2 eps then some (i, 0, 2, 1)
    else if equalsV t.2.2 v1 eps && equalsV t.1 v2 eps then some (i, 2, 0, 1)
    else if equalsV t.2.1 v1 eps && equalsV t.2.2 v2 eps then some (i, 1, 2, 0)
    else if equalsV t.2.2 v1 eps && equalsV t.2.1 v2 eps then some (i, 2, 1, 0)
    else go (i + 1) rest

/-- `flip_edge` (hull.h:891-931), with explicit fuel for the unbounded C++
recursion (`none` = fuel exhausted; the concrete runs below terminate).  The
construction of the second new triangle reads the already-updated
`triags[triagidx]`, mirroring the aliased read of the source. -/
def flip_edge (fuel : ℕ) (triags : List Tri) (triagidx nonsharedidx : ℕ) (eps : Frac) :
    Option (List Tri) :=
  match fuel with
  | 0 => none
  | fuel + 1 =>
    let sharedidx1 := (nonsharedidx + 1) % 3
    let sharedidx2 := (nonsharedidx + 2) % 3
    let t := tlistGet triags triagidx
    match get_triag_sharing_edge triags (triGet t sharedidx1) (triGet t sharedidx2) triagidx eps with
    | none => some triags
    | some (othertriagidx, othersharedidx1, othersharedidx2, othernonsharedidx) =>
      if is_conflicting_triag (tlistGet triags othertriagidx) (triGet t nonsharedidx) then
        let oth := tlistGet triags othertriagidx
        let triags1 := triags.set triagidx
          (triGet t nonsharedidx, triGet oth othernonsharedidx, triGet oth othersharedidx1)
        let t1 := tlistGet triags1 triagidx
        let triags2 := triags1.set othertriagidx
          (triGet t1 nonsharedidx, triGet oth othernonsharedidx, triGet oth othersharedidx2)
        do
          let a ← flip_edge fuel triags2 othertriagidx othernonsharedidx eps
          let b ← flip_edge fuel a othertriagidx othersharedidx1 eps
          let c ← flip_edge fuel b othertriagidx othersharedidx2 eps
          let d ← flip_edge fuel c triagidx nonsharedidx eps
          let e ← flip_edge fuel d triagidx sharedidx1 eps
          flip_edge fuel e triagidx sharedidx2 eps
      else some triags

/-- Modelled from the spec: `get_containing_triag` of `lines.h` (not under
`src/`): the first triangle containing the point, by a sign-agnostic inclusive
side-of-line test (the stored triangles are in no fixed winding order). -/
def get_containing_triag (triags : List Tri) (pt : Vec2) : Option ℕ :=
  go 0 triags
where
  go (i : ℕ) : List Tri → Option ℕ
  | [] => none
  | t :: rest =>
    let s1 := side_of_line t.1 t.2.1 pt
    let s2 := side_of_line t.2.1 t.2.2 pt
    let s3 := side_of_line t.2.2 t.1 pt
    if (fleB 0 s1 && fleB 0 s2 && fleB 0 s3) || (fleB s1 0 && fleB s2 0 && fleB s3 0) then some i
    else go (i + 1) rest

/-- atan2 ordering class of a direction: angle in `(-π, 0)`, `{0}`, `(0, π)`,
`{π}`, ascending (for the exact polar-angle comparison below). -/
def angClass (d : Vec2) : ℕ :=
  if fltB d.2 0 then 0
  else if feqB d.2 0 && fleB 0 d.1 then 1
  else if fltB 0 d.2 then 2
  else 3

/-- Modelled from the spec: the polar-angle comparison of
`sort_vertices_by_angle` in `lines.h` (not under `src/`): "sort by polar angle
around the input centroid".  `atan2` values are compared exactly: first by
half-plane class, then inside an open half-plane by the cross product. -/
def angLtB (c a b : Vec2) : Bool :=
  let da := vsub a c
  let db := vsub b c
  (angClass da < angClass db) ||
    ((angClass da = angClass db) && (angClass da = 0 || angClass da = 2)
      && fltB 0 (crossZ da db))

/-- Centroid of a vertex list. -/
def meanV (verts : List Vec2) : Vec2 :=
  let s := verts.foldl (fun acc v => vadd acc v) ((0 : Frac), (0 : Frac))
  vdivs s ⟨(verts.length : ℤ), 1⟩

/-- Modelled from the spec: `sort_vertices_by_angle` of `lines.h` (not under
`src/`): stable sort by polar angle around the centroid (`std::stable_sort`
agrees with a stable insertion sort under the same comparator). -/
def sort_vertices_by_angle (verts : List Vec2) : List Vec2 × Vec2 :=
  let m := meanV verts
  (List.insertionSort (fun a b => ¬ (angLtB m b a = true)) verts, m)

/-- Sorting a triangle's 3-element vertex vector by polar angle. -/
def sortTri (t : Tri) : Tri :=
  match (sort_vertices_by_angle [t.1, t.2.1, t.2.2]).1 with
  | [a, b, c] => (a, b, c)
  | _ => t

/-- Ordered insert into a sorted index list (`std::set<std::size_t>::insert`). -/
def setInsert (x : ℕ) : List ℕ → List ℕ
  | [] => [x]
  | y :: ys => if x < y then x :: y :: ys else if x = y then y :: ys else y :: setInsert x ys

/-- One step of the final phase of `calc_delaunay_iterative` (hull.h:1042-1058):
sort triangle `i` in place, emit its circumcentre as a voronoi vertex, and
collect the up-to-three neighbours sharing an edge. -/
def delaunayFinal (eps : Frac) (i : ℕ) (st : List Tri × List (Option Vec2) × List (List ℕ)) :
    List Tri × List (Option Vec2) × List (List ℕ) :=
  let (triags, voro, nbs) := st
  let sorted := sortTri (tlistGet triags i)
  let triags' := triags.set i sorted
  let voro' := voro ++ [calc_circumcentre sorted]
  let o1 := get_triag_sharing_edge triags' (triGet sorted 0) (triGet sorted 1) i eps
  let o2 := get_triag_sharing_edge triags' (triGet sorted 0) (triGet sorted 2) i eps
  let o3 := get_triag_sharing_edge triags' (triGet sorted 1) (triGet sorted 2) i eps
  let nb := [o1, o2, o3].foldl (fun acc o => match o with
    | some (j, _, _, _) => setInsert j acc
    | none => acc) []
  (triags', voro', nbs ++ [nb])

/-- The vertex-insertion step of `calc_delaunay_iterative` (hull.h:964-1035).
Only the branch for a vertex inside an existing triangle is modelled; a vertex
falling outside the triangulation (the convex-hull extension branch, never
reached in the concrete runs below) yields `none`. -/
def delaunayInsert (flipFuel : ℕ) (eps : Frac) (newvert : Vec2) (triags : List Tri) :
    Option (List Tri) :=
  match get_containing_triag triags newvert with
  | none => none
  | some idx =>
    let cont := tlistGet triags idx
    let triags1 := triags.eraseIdx idx
    let triags2 := triags1 ++ [(newvert, cont.1, cont.2.1),
                               (newvert, cont.1, cont.2.2),
                               (newvert, cont.2.1, cont.2.2)]
    let n := triags2.length
    do
      let a ← flip_edge flipFuel triags2 (n - 3) 0 eps
      let b ← flip_edge flipFuel a (n - 2) 0 eps
      flip_edge flipFuel b (n - 1) 0 eps

/-- `calc_delaunay_iterative` (hull.h:938-1063): returns
`(voronoi vertices, triangles, neighbour index sets)`; fewer than three input
vertices yield the three empty lists.  `none` models fuel exhaustion or the
unmodelled hull-extension branch. -/
def calc_delaunay_iterative (flipFuel : ℕ) (verts : List Vec2) (eps : Frac) :
    Option (List (Option Vec2) × List Tri × List (List ℕ)) :=
  if verts.length < 3 then some ([], [], [])
  else
    let t0 : Tri := (verts.getD 0 (0, 0), verts.getD 1 (0, 0), verts.getD 2 (0, 0))
    do
      let triags ← go (verts.drop 3) [t0]
      let n := triags.length
      let (ts, voro, nbs) := (List.range n).foldl (fun st i => delaunayFinal eps i st)
        (triags, ([] : List (Option Vec2)), ([] : List (List ℕ)))
      some (voro, ts, nbs)
where
  go : List Vec2 → List Tri → Option (List Tri)
  | [], triags => some triags
  | v :: rest, triags => do
    go rest (← delaunayInsert flipFuel eps v triags)

/-- The delaunay invariant of the claim, as a checker: no input point that is
not a corner of a triangle (up to `eps`) may lie strictly inside its
circumcircle by more than `eps`.  "`dist + eps < rad`" is stated square-free:
`0 < radSq - distSq - eps²` together with `(2·dist·eps)² < (radSq - distSq - eps²)²`. -/
def delaunay_property_holds (verts : List Vec2) (ts : List Tri) (eps : Frac) : Bool :=
  ts.all fun t =>
    match calc_circumcentre t with
    | none => true
    | some c =>
      let radSq := distSq t.1 c
      verts.all fun p =>
        if equalsV p t.1 eps || equalsV p t.2.1 eps || equalsV p t.2.2 eps then true
        else
          let dSq := distSq p c
          let k := radSq - dSq - eps * eps
          ¬ (fltB 0 k && fltB (4 * dSq * (eps * eps)) (k * k))

/-- The failing input for the delaunay claim: three well-separated corners,
`(40, 4)`, a second point within `eps = 10⁻⁵` of it componentwise (offsets
`6·10⁻⁶` and `9·10⁻⁶`), and `(17, 4)`. -/
def delaunayCexInput : List Vec2 :=
  [(0, 0), (48, 0), (24, 40), (40, 4),
   (mkF 20000003 500000, mkF 4000009 1000000), (17, 4)]

-- ---------------------------------------------------------------------------
-- convex hull: calc_hull_iterative (hull.h:295-350), calc_hull_contour
-- (hull.h:496-599) and helpers.
-- ---------------------------------------------------------------------------

/-- Modelled from the spec: `_remove_duplicates` of `lines.h` (not under
`src/`): "duplicate points (within eps) are dropped before hulling" — every
point that eps-equals an earlier kept point is dropped. -/
def _remove_duplicates (verts : List Vec2) (eps : Frac) : List Vec2 :=
  verts.foldl (fun acc v => if acc.any (fun w => equalsV w v eps) then acc else acc ++ [v]) []

/-- Lexicographic order on vertices: by x, then by y. -/
def lexLeB (a b : Vec2) : Bool := fltB a.1 b.1 || (feqB a.1 b.1 && fleB a.2 b.2)

/-- Modelled from the spec: `_sort_vertices` of `lines.h` (not under `src/`):
"sort by x" (stable, ties by y) with eps-duplicates dropped. -/
def _sort_vertices (verts : List Vec2) (eps : Frac) : List Vec2 :=
  List.insertionSort (fun a b => lexLeB a b = true) (_remove_duplicates verts eps)

/-- Circular list access (`circular_wrapper` indexing, spec §9: "a thin
index-wrapping view over a fixed backing vector"). -/
def cget (l : List Vec2) (i : ℕ) : Vec2 := l.getD (i % l.length) (0, 0)

/-- Modelled from the spec: erasing a circular index range `[a, b)` taken
modulo the length (`circular_iterator.h` is not under `src/`). -/
def circularEraseRange (l : List Vec2) (a b : ℕ) : List Vec2 :=
  let n := l.length
  if n = 0 then l
  else
    let p1 := a % n
    let p2 := b % n
    if p1 ≤ p2 then l.take p1 ++ l.drop p2
    else (l.drop p2).take (p1 - p2)

/-- `is_vert_in_hull` (hull.h:252-288) with an explicitly supplied interior
point (as in the call of `calc_hull_iterative`). -/
def is_vert_in_hull (hull : List Vec2) (newvert vih : Vec2) : Bool × ℕ × ℕ :=
  go 0
where
  go (i : ℕ) : Bool × ℕ × ℕ :=
    if h : i < hull.length then
      let i2 := if i + 1 ≥ hull.length then 0 else i + 1
      let h1 := cget hull i
      let h2 := cget hull i2
      if fltB 0 (side_of_line vih h1 newvert) && fleB (side_of_line vih h2 newvert) 0 then
        if fltB (side_of_line h1 h2 newvert) 0 then (false, i, i2)
        else go (i + 1)
      else go (i + 1)
    else (true, 0, 0)
  termination_by hull.length - i

/-- Circular access at a signed absolute iterator position. -/
def hgetZ (l : List Vec2) (p : ℤ) : Vec2 :=
  if l.length = 0 then (0, 0) else cget l (p.emod l.length).toNat

/-- The downwards tangent walk of `calc_hull_iterative` (hull.h:331-335):
decrement while the side test fails and the round stays `≥ -2`. -/
def walkDown (fuel : ℕ) (hull : List Vec2) (nv : Vec2) (pos : ℤ) : ℤ :=
  match fuel with
  | 0 => pos
  | fuel + 1 =>
    if pos.fdiv hull.length < -2 then pos
    else if fleB 0 (side_of_line (hgetZ hull pos) nv (hgetZ hull (pos - 1))) then pos
    else walkDown fuel hull nv (pos - 1)

/-- The upwards tangent walk of `calc_hull_iterative` (hull.h:337-341). -/
def walkUp (fuel : ℕ) (hull : List Vec2) (nv : Vec2) (pos : ℤ) : ℤ :=
  match fuel with
  | 0 => pos
  | fuel + 1 =>
    if pos.fdiv hull.length > 2 then pos
    else if fleB (side_of_line (hgetZ hull pos) nv (hgetZ hull (pos + 1))) 0 then pos
    else walkUp fuel hull nv (pos + 1)

/-- Modelled from the spec: circular-iterator range erase returning the
follow-up position (`circular_iterator.h` is not under `src/`). -/
def circularEraseIter (l : List Vec2) (a b : ℤ) : List Vec2 × ℕ :=
  let n := l.length
  if n = 0 then (l, 0)
  else
    let p1 := (a.emod n).toNat
    let p2 := (b.emod n).toNat
    if p1 ≤ p2 then (l.take p1 ++ l.drop p2, p1)
    else ((l.drop p2).take (p1 - p2), 0)

/-- One insertion step of `calc_hull_iterative` (hull.h:313-347). -/
def hullInsertStep (hull : List Vec2) (vih newvert : Vec2) : List Vec2 :=
  let (inHull, i1, i2) := is_vert_in_hull hull newvert vih
  if inHull then hull
  else
    let n := hull.length
    let lower0 : ℤ := (i1 : ℤ)
    let upper0 : ℤ := if i1 > i2 ∧ (lower0.fdiv n = ((i2 : ℤ)).fdiv n) then (i2 : ℤ) + n else (i2 : ℤ)
    let lower := walkDown (5 * n + 5) hull newvert lower0
    let upper := walkUp (5 * n + 5) hull newvert upper0
    let (hull', insPos) :=
      if lower + 1 < upper then circularEraseIter hull (lower + 1) upper
      else (hull, (upper.emod n).toNat)
    hull'.take insPos ++ [newvert] ++ hull'.drop insPos

/-- `calc_hull_iterative` (hull.h:295-350): duplicates are dropped; up to three
vertices are returned as they stand; further vertices are inserted one by one,
deleting the visible chain. -/
def calc_hull_iterative (verts0 : List Vec2) (eps : Frac) : List Vec2 :=
  let verts := _remove_duplicates verts0 eps
  if verts.length ≤ 3 then verts
  else
    let (hull0, vih) := sort_vertices_by_angle (verts.take 3)
    (verts.drop 3).foldl (fun hull nv => hullInsertStep hull vih nv) hull0

/-- The contour-determination phase of `calc_hull_contour` (hull.h:505-565).
The running y-extrema start at `(+∞, -∞)` (modelled by `none`). -/
def hullContourVerts (verts : List Vec2) (eps : Frac) : List Vec2 :=
  let pass := fun (acc : Option Frac × Option Frac × List Vec2 × List Vec2) (v : Vec2) =>
    let (miny, maxy, top, bot) := acc
    let gtMax := match maxy with | none => true | some m => fltB m v.2
    let ltMin := match miny with | none => true | some m => fltB v.2 m
    let (maxy', top') := if gtMax then (some v.2, top ++ [v]) else (maxy, top)
    let (miny', bot') := if ltMin then (some v.2, v :: bot) else (miny, bot)
    (miny', maxy', top', bot')
  let (_, _, leftTop, leftBot) := verts.foldl pass (none, none, [], [])
  let passR := fun (acc : Option Frac × Option Frac × List Vec2 × List Vec2) (v : Vec2) =>
    let (miny, maxy, top, bot) := acc
    let gtMax := match maxy with | none => true | some m => fltB m v.2
    let ltMin := match miny with | none => true | some m => fltB v.2 m
    let (maxy', top') := if gtMax then (some v.2, v :: top) else (maxy, top)
    let (miny', bot') := if ltMin then (some v.2, bot ++ [v]) else (miny, bot)
    (miny', maxy', top', bot')
  let (_, _, rightTop, rightBot) := verts.reverse.foldl passR (none, none, [], [])
  -- concatenate, inserting a vertex only if it differs from the last one
  -- (the source dereferences `rbegin()` of the still-empty vector on the very
  -- first insertion; that read of an indeterminate value compares unequal,
  -- modelled by inserting into an empty list unconditionally)
  let push := fun (acc : List Vec2) (v : Vec2) =>
    match acc.getLast? with
    | none => acc ++ [v]
    | some w => if equalsV w v eps then acc else acc ++ [v]
  let cat := (leftTop ++ rightTop ++ rightBot ++ leftBot).foldl push []
  match cat.head?, cat.getLast? with
  | some h, some l => if cat.length ≥ 2 && equalsV h l eps then cat.dropLast else cat
  | _, _ => cat

/-- The inner back-scan of the contour-hull sweep (hull.h:579-591). -/
def hullSweepScan (verts : List Vec2) (curidx : ℕ) : ℕ → Option ℕ
  | 0 => none
  | lastgood + 1 =>
    if fleB (side_of_line (cget verts lastgood) (cget verts (lastgood + 1)) (cget verts (curidx + 1))) 0 then
      if lastgood + 2 > curidx + 1 then hullSweepScan verts curidx lastgood
      else some (lastgood + 1)
    else hullSweepScan verts curidx lastgood

/-- The convexity sweep of `calc_hull_contour` (hull.h:568-596). -/
def hullSweep (fuel : ℕ) (curidx : ℕ) (verts : List Vec2) : List Vec2 :=
  match fuel with
  | 0 => verts
  | fuel + 1 =>
    if ¬ (curidx < verts.length * 2 - 1) then verts
    else if curidx < 1 then verts
    else if fltB (side_of_line (cget verts (curidx - 1)) (cget verts (curidx + 1)) (cget verts curidx)) 0 then
      match hullSweepScan verts curidx curidx with
      | some lastgood => hullSweep fuel lastgood (circularEraseRange verts (lastgood + 1) (curidx + 1))
      | none => hullSweep fuel (curidx + 1) verts
    else hullSweep fuel (curidx + 1) verts

/-- `calc_hull_contour` (hull.h:496-599). -/
def calc_hull_contour (verts0 : List Vec2) (eps : Frac) : List Vec2 :=
  let verts := hullContourVerts (_sort_vertices verts0 eps) eps
  hullSweep (verts.length * 4 + 8) 1 verts

/-- Semantic (exact, eps-free) equality of vertices. -/
def veqE (a b : Vec2) : Bool := feqB a.1 b.1 && feqB a.2 b.2

/-- Semantic equality of vertex sequences. -/
def listEqV : List Vec2 → List Vec2 → Bool
  | [], [] => true
  | a :: as', b :: bs => veqE a b && listEqV as' bs
  | _, _ => false

/-- Does `l1` equal `l2` rotated by some offset (same starting-vertex-rotation
equivalence the claim uses)? -/
def isRotationOf (l1 l2 : List Vec2) : Bool :=
  (List.range (l2.length + 1)).any (fun k => listEqV l1 (l2.rotate k))

-- ---------------------------------------------------------------------------
-- roadmap graphs and dijkstra: `graphs.h` is not part of `src/` (only its unit
-- test `unittests/dijkstra.cpp` is), so the two graph representations and the
-- algorithm are modelled from the spec (§4.6): undirected weighted graph over
-- an adjacency matrix or an adjacency list; dijkstra returns a predecessor
-- array, tie-breaking on equal distance by lowest vertex index.  The test's
-- string identifiers "v1".."v5" are modelled by the numbers 1..5.
-- ---------------------------------------------------------------------------

/-- First index of an identifier. -/
def identIndex (ids : List ℕ) (id : ℕ) : Option ℕ := go 0 ids
where
  go (i : ℕ) : List ℕ → Option ℕ
  | [] => none
  | x :: rest => if x = id then some i else go (i + 1) rest

/-- Modelled from the spec: the adjacency-matrix graph representation. -/
structure AdjacencyMatrix where
  idents : List ℕ
  mat : List (List (Option ℕ))
  deriving DecidableEq, Repr

def AdjacencyMatrix.empty : AdjacencyMatrix := ⟨[], []⟩

def AdjacencyMatrix.AddVertex (g : AdjacencyMatrix) (id : ℕ) : AdjacencyMatrix :=
  ⟨g.idents ++ [id],
   g.mat.map (fun row => row ++ [none]) ++ [List.replicate (g.idents.length + 1) none]⟩

def AdjacencyMatrix.AddEdge (g : AdjacencyMatrix) (a b w : ℕ) : AdjacencyMatrix :=
  match identIndex g.idents a, identIndex g.idents b with
  | some i, some j => ⟨g.idents, g.mat.set i ((g.mat.getD i []).set j (some w))⟩
  | _, _ => g

def AdjacencyMatrix.GetWeight (g : AdjacencyMatrix) (i j : ℕ) : Option ℕ :=
  (g.mat.getD i []).getD j none

/-- Modelled from the spec: the adjacency-list graph representation. -/
structure AdjacencyList where
  idents : List ℕ
  adj : List (List (ℕ × ℕ))
  deriving DecidableEq, Repr

def AdjacencyList.empty : AdjacencyList := ⟨[], []⟩

def AdjacencyList.AddVertex (g : AdjacencyList) (id : ℕ) : AdjacencyList :=
  ⟨g.idents ++ [id], g.adj ++ [[]]⟩

def AdjacencyList.AddEdge (g : AdjacencyList) (a b w : ℕ) : AdjacencyList :=
  match identIndex g.idents a, identIndex g.idents b with
  | some i, some j => ⟨g.idents, g.adj.set i ((g.adj.getD i []) ++ [(j, w)])⟩
  | _, _ => g

def AdjacencyList.GetWeight (g : AdjacencyList) (i j : ℕ) : Option ℕ :=
  go ((g.adj.getD i []))
where
  go : List (ℕ × ℕ) → Option ℕ
  | [] => none
  | (k, w) :: rest => if k = j then some w else go rest

/-- Choose the unvisited vertex of smallest finite tentative distance, ties by
lowest index (spec §4.6: "tie-breaking on equal distance is by lowest vertex
index"). -/
def dijkstraPick (dist : List (Option ℕ)) (visited : List Bool) : Option ℕ :=
  go 0 dist none
where
  go (i : ℕ) : List (Option ℕ) → Option (ℕ × ℕ) → Option ℕ
  | [], best => best.map (·.1)
  | d :: rest, best =>
    let best' :=
      if visited.getD i false then best
      else match d, best with
        | none, _ => best
        | some dv, none => some (i, dv)
        | some dv, some (_, bv) => if dv < bv then some (i, dv) else best
    go (i + 1) rest best'

/-- The relaxation pass over all vertices from the just-visited vertex `u`. -/
def dijkstraRelax (w : ℕ → ℕ → Option ℕ) (u : ℕ)
    (st : List (Option ℕ) × List (Option ℕ)) : ℕ → List (Option ℕ) × List (Option ℕ)
  | 0 => st
  | v + 1 =>
    let st' := dijkstraRelax w u st v
    let (dist, pred) := st'
    match dist.getD u none, w u v with
    | some du, some wv =>
      let cand := du + wv
      match dist.getD v none with
      | none => (dist.set v (some cand), pred.set v (some u))
      | some dv => if cand < dv then (dist.set v (some cand), pred.set v (some u)) else st'
    | _, _ => st'

/-- Modelled from the spec: dijkstra over `n` vertices with weight lookup `w`
from vertex `start`; returns the predecessor array (§4.6). -/
def dijkstra (n : ℕ) (w : ℕ → ℕ → Option ℕ) (start : ℕ) : List (Option ℕ) :=
  go n ((List.replicate n (none : Option ℕ)).set start (some 0))
    (List.replicate n (none : Option ℕ)) (List.replicate n false)
where
  go : ℕ → List (Option ℕ) → List (Option ℕ) → List Bool → List (Option ℕ)
  | 0, _, pred, _ => pred
  | fuel + 1, dist, pred, visited =>
    match dijkstraPick dist visited with
    | none => pred
    | some u =>
      let visited' := visited.set u true
      let (dist', pred') := dijkstraRelax w u (dist, pred) n
      go fuel dist' pred' visited'

/-- The canonical dijkstra test graph of `unittests/dijkstra.cpp`, over the
adjacency matrix. -/
def dijkTestMatrix : AdjacencyMatrix :=
  AdjacencyMatrix.empty.AddVertex 1 |>.AddVertex 2 |>.AddVertex 3 |>.AddVertex 4 |>.AddVertex 5
    |>.AddEdge 1 2 1 |>.AddEdge 1 4 9 |>.AddEdge 1 5 10 |>.AddEdge 2 3 3 |>.AddEdge 2 4 7
    |>.AddEdge 3 1 10 |>.AddEdge 3 4 1 |>.AddEdge 3 5 2 |>.AddEdge 4 2 1 |>.AddEdge 4 5 2

/-- The same graph over the adjacency list. -/
def dijkTestList : AdjacencyList :=
  AdjacencyList.empty.AddVertex 1 |>.AddVertex 2 |>.AddVertex 3 |>.AddVertex 4 |>.AddVertex 5
    |>.AddEdge 1 2 1 |>.AddEdge 1 4 9 |>.AddEdge 1 5 10 |>.AddEdge 2 3 3 |>.AddEdge 2 4 7
    |>.AddEdge 3 1 10 |>.AddEdge 3 4 1 |>.AddEdge 3 5 2 |>.AddEdge 4 2 1 |>.AddEdge 4 5 2

-- ---------------------------------------------------------------------------
-- voronoi diagrams for line segments: calc_voro (hull.h:1258-1728).  The
-- boost.polygon diagram construction (`voronoi_builder` / `voronoi_diagram`)
-- is an external library call; the diagram it hands back is therefore an
-- input (`VoroDiagram`) here, and calc_voro's own processing of that diagram
-- is embedded.  `tl2::norm` (an irrational square root) and the helpers
-- `pt_inside_poly` (lines.h, not under src/) and
-- `voronoi_visual_utils::discretize` (boost example code) enter as explicit
-- function parameters (`VoroPrims`).
-- ---------------------------------------------------------------------------

/-- A line segment (ordered pair of vertices). -/
abbrev Line := Vec2 × Vec2

/-- boost.polygon cell source categories. -/
inductive SrcCat
  | startPt
  | endPt
  | seg
  deriving DecidableEq, Repr

/-- A voronoi cell: source segment index and category. -/
structure VoroCell where
  srcIdx : ℕ
  cat : SrcCat
  deriving DecidableEq, Repr

/-- `cell->contains_point()`. -/
def cellContainsPoint : Option VoroCell → Bool
  | some c => c.cat ≠ SrcCat.seg
  | none => false

/-- A voronoi edge as handed back by the library: primary/secondary, curved,
the two endpoint vertex indices (`none` = infinite end), and the two adjacent
cells (the edge's own and its twin's). -/
structure VoroEdge where
  secondary : Bool
  curved : Bool
  vert0 : Option ℕ
  vert1 : Option ℕ
  cell : Option VoroCell
  cellTwin : Option VoroCell
  deriving DecidableEq, Repr

/-- `edge.is_finite()`: both endpoints are proper vertices. -/
def VoroEdge.finite (e : VoroEdge) : Bool := e.vert0.isSome && e.vert1.isSome

/-- The library diagram: vertex coordinates (in the integer-scaled space) and
edges. -/
structure VoroDiagram where
  verts : List Vec2
  edges : List VoroEdge
  deriving DecidableEq, Repr

/-- The externally supplied primitives.  `normF` models `tl2::norm`,
`ptInside` models `pt_inside_poly(lines, pt, grp_beg, grp_end, eps)`, and
`discretize pt seg maxDist init` models
`voronoi_visual_utils::discretize` extending the 2-point polyline `init`. -/
structure VoroPrims where
  normF : Vec2 → Frac
  ptInside : List Line → Vec2 → ℕ → ℕ → Frac → Bool
  discretize : Vec2 → Line → Frac → List Vec2 → List Vec2

/-- Modelled from the spec: the roadmap graph of `graphs.h` (not under `src/`;
spec §4.6): vertex identifiers (the source uses the decimal strings
`"1"`,`"2"`,…, modelled by the numbers themselves) plus a directed edge list
`(from-index, to-index, weight)`; add-vertex, add-edge and remove-vertex with
cascaded edge removal and index compaction. -/
structure Graph where
  verts : List ℕ
  edges : List (ℕ × ℕ × Frac)
  deriving DecidableEq, Repr

def Graph.AddVertex (g : Graph) (id : ℕ) : Graph := ⟨g.verts ++ [id], g.edges⟩

def Graph.AddEdgeIdx (g : Graph) (i j : ℕ) (w : Frac) : Graph :=
  ⟨g.verts, g.edges ++ [(i, j, w)]⟩

/-- Outgoing edges of the vertex with identifier `id` (`GetNeighbours(id, 1)`). -/
def Graph.outgoingIdent (g : Graph) (id : ℕ) : List (ℕ × ℕ × Frac) :=
  match identIndex g.verts id with
  | none => []
  | some k => g.edges.filter (fun e => e.1 = k)

/-- Remove the vertex at index `k`: erase it, drop its incident edges, shift
the higher indices down. -/
def Graph.RemoveVertexIdx (g : Graph) (k : ℕ) : Graph :=
  let shift := fun (i : ℕ) => if k < i then i - 1 else i
  ⟨g.verts.eraseIdx k,
   (g.edges.filter (fun e => e.1 ≠ k ∧ e.2.1 ≠ k)).map (fun e => (shift e.1, shift e.2.1, e.2.2))⟩

/-- `RemoveVertex` by identifier. -/
def Graph.RemoveVertexIdent (g : Graph) (id : ℕ) : Graph :=
  match identIndex g.verts id with
  | none => g
  | some k => g.RemoveVertexIdx k

/-- Ceiling of a fraction (denominators are positive). -/
def fceil (a : Frac) : Frac := ⟨(a.num + a.den - 1).fdiv a.den, 1⟩

/-- `get_group_idx` (hull.h:1337-1351): the first group whose half-open index
range `[beg, end)` contains the segment index. -/
def get_group_idx (groups : List (ℕ × ℕ)) (segidx : ℕ) : Option ℕ :=
  go 0 groups
where
  go (i : ℕ) : List (ℕ × ℕ) → Option ℕ
  | [] => none
  | (b, e) :: rest => if b ≤ segidx ∧ segidx < e then some i else go (i + 1) rest

/-- `get_vertex_idx` (hull.h:1374-1391): a null pointer has no index, any
vertex of the diagram is found at its position. -/
def get_vertex_idx (nverts : ℕ) : Option ℕ → Option ℕ
  | none => none
  | some i => if i < nverts then some i else none

/-- `get_segment_idx` (hull.h:1326-1335). -/
def get_segment_idx (e : VoroEdge) (twin : Bool) : Option ℕ :=
  (if twin then e.cellTwin else e.cell).map (·.srcIdx)

/-- `get_segment` (hull.h:1476-1485). -/
def get_segment (lines : List Line) (e : VoroEdge) (twin : Bool) : Option Line :=
  (get_segment_idx e twin).bind (fun i => lines.get? i)

/-- `get_segment_point` (hull.h:1489-1514). -/
def get_segment_point (lines : List Line) (e : VoroEdge) (twin : Bool) : Option Vec2 :=
  match (if twin then e.cellTwin else e.cell) with
  | none => none
  | some c =>
    match lines.get? c.srcIdx with
    | none => none
    | some l =>
      match c.cat with
      | SrcCat.startPt => some l.1
      | SrcCat.endPt => some l.2
      | SrcCat.seg => none

/-- The evolving outputs of the edge loop of `calc_voro`. -/
structure VoroState where
  graph : Graph
  linear : List (Line × Option ℕ × Option ℕ)
  parabolic : List (List Vec2 × ℕ × ℕ)
  deriving Repr

/-- The same-group test of the edge loop (hull.h:1415-1426): both adjoining
cells' line segments exist and lie in the same group. -/
def sameGroupB (line_groups : List (ℕ × ℕ)) (e : VoroEdge) : Bool :=
  match get_segment_idx e false, get_segment_idx e true with
  | some s1, some s2 =>
    match get_group_idx line_groups s1, get_group_idx line_groups s2 with
    | some r1, some r2 => r1 == r2
    | _, _ => false
  | _, _ => false

/-- The region test of the edge loop (hull.h:1431-1454): one of the edge's
proper endpoints lies inside some group's region. -/
def vertInsideB (prims : VoroPrims) (lines : List Line) (line_groups : List (ℕ × ℕ))
    (vertices : List Vec2) (eps : Frac) (e : VoroEdge) : Bool :=
  let vert0idx := get_vertex_idx vertices.length e.vert0
  let vert1idx := get_vertex_idx vertices.length e.vert1
  line_groups.any fun g =>
    (match vert0idx with
     | some i => prims.ptInside lines (vertices.getD i (0, 0)) g.1 g.2 eps
     | none => false) ||
    (match vert1idx with
     | some i => prims.ptInside lines (vertices.getD i (0, 0)) g.1 g.2 eps
     | none => false)

/-- The body of the edge loop of `calc_voro` (hull.h:1399-1633) for one edge. -/
def voroStep (prims : VoroPrims) (lines : List Line) (line_groups : List (ℕ × ℕ))
    (remove_voronoi_vertices_in_regions : Bool) (edge_eps scale : Frac)
    (rawVerts vertices : List Vec2) (eps : Frac) (infline_len : Frac)
    (st : VoroState) (e : VoroEdge) : VoroState :=
  -- only bisectors, no internal edges
  if e.secondary then st
  else
    let vert0idx := get_vertex_idx vertices.length e.vert0
    let vert1idx := get_vertex_idx vertices.length e.vert1
    let valid_vertices := vert0idx.isSome && vert1idx.isSome
    -- group filters
    if (line_groups.length != 0) && sameGroupB line_groups e then st
    else
      if (line_groups.length != 0) && remove_voronoi_vertices_in_regions
          && vertInsideB prims lines line_groups vertices eps e then st
      else
        -- add graph edges for valid vertex pairs
        let st1 :=
          if valid_vertices then
            let i0 := vert0idx.getD 0
            let i1 := vert1idx.getD 0
            let len := prims.normF (vsub (vertices.getD i1 (0, 0)) (vertices.getD i0 (0, 0)))
            { st with graph := (st.graph.AddEdgeIdx i0 i1 len).AddEdgeIdx i1 i0 len }
          else st
        if e.finite && ! valid_vertices then st1
        else
          -- parabolic edge
          if e.curved && e.finite then
            match get_segment lines e (cellContainsPoint e.cell),
                  get_segment_point lines e (! cellContainsPoint e.cell) with
            | some seg, some pt =>
              let v0 := vdivs (dg0 rawVerts e.vert0) scale
              let v1 := vdivs (dg0 rawVerts e.vert1) scale
              let parabola := prims.discretize pt seg edge_eps [v0, v1]
              if parabola.length ≠ 0 then
                { st1 with parabolic :=
                    st1.parabolic ++ [(parabola, vert0idx.getD 0, vert1idx.getD 0)] }
              else st1
            | _, _ => st1
          else
            -- linear edge
            if e.finite then
              let line : Line := (vdivs (dg0 rawVerts e.vert0) scale, vdivs (dg0 rawVerts e.vert1) scale)
              { st1 with linear := st1.linear ++ [(line, vert0idx, vert1idx)] }
            else
              match e.vert0, e.vert1 with
              | none, none => st1
              | v0, v1 =>
                let inverted := v0.isNone
                let lineorg0 := if inverted then dg0 rawVerts v1 else dg0 rawVerts v0
                let lineorg := vdivs lineorg0 scale
                match get_segment_point lines e false, get_segment_point lines e true with
                | some vec, some twinvec =>
                  let perpdir0 := vsub vec twinvec
                  let perpdir := if inverted then vneg perpdir0 else perpdir0
                  let linedir0 : Vec2 := (perpdir.2, -perpdir.1)
                  let linedir1 := vdivs linedir0 (prims.normF linedir0)
                  let linedir := vscale infline_len linedir1
                  let line : Line := (lineorg, vadd lineorg linedir)
                  { st1 with linear := st1.linear ++ [(line, vert0idx, vert1idx)] }
                | _, _ => st1
where
  /-- raw coordinates of a diagram vertex pointer (`vertex_to_vec`; only ever
  dereferenced on non-null pointers in the source). -/
  dg0 (rawVerts : List Vec2) : Option ℕ → Vec2
  | some i => rawVerts.getD i (0, 0)
  | none => (0, 0)

/-- The edge loop of `calc_voro`. -/
def voroEdgeLoop (prims : VoroPrims) (lines : List Line) (line_groups : List (ℕ × ℕ))
    (flag : Bool) (edge_eps scale : Frac) (rawVerts vertices : List Vec2)
    (eps infline_len : Frac) (st0 : VoroState) (edges : List VoroEdge) : VoroState :=
  edges.foldl
    (voroStep prims lines line_groups flag edge_eps scale rawVerts vertices eps infline_len) st0

/-- One step of the compaction loop (hull.h:1668-1723) for a removed original
index `idx`: erase the vertex coordinate (the source throws `out_of_range` on
an out-of-bounds index, which the development below proves unreachable), drop
every bisector referencing `idx` and shift the higher indices down. -/
def voroCompactStep (st : List Vec2 × List (Line × Option ℕ × Option ℕ) × List (List Vec2 × ℕ × ℕ))
    (idx : ℕ) : List Vec2 × List (Line × Option ℕ × Option ℕ) × List (List Vec2 × ℕ × ℕ) :=
  let (vertices, linear, parabolic) := st
  let vertices' := vertices.eraseIdx idx
  let linear' := linear.filterMap fun lb =>
    let (l, i0, i1) := lb
    if i0 = some idx ∨ i1 = some idx then none
    else some (l, i0.map (fun i => if idx ≤ i then i - 1 else i),
                  i1.map (fun i => if idx ≤ i then i - 1 else i))
  let parabolic' := parabolic.filterMap fun pb =>
    let (p, i0, i1) := pb
    if i0 = idx ∨ i1 = idx then none
    else some (p, if idx ≤ i0 then i0 - 1 else i0, if idx ≤ i1 then i1 - 1 else i1)
  (vertices', linear', parabolic')

/-- One step of the isolated-vertex detection loop (hull.h:1652-1663): remove
the vertex when it has no outgoing edges, recording its original index. -/
def detectStep (acc : Graph × List ℕ × ℕ) (id : ℕ) : Graph × List ℕ × ℕ :=
  let (g, rem, i) := acc
  if (g.outgoingIdent id).isEmpty then (g.RemoveVertexIdent id, rem ++ [i], i + 1)
  else (g, rem, i + 1)

/-- `calc_voro` (hull.h:1258-1728) on a library-produced diagram `dg`:
coordinate scaling, the edge loop, and (for a non-empty grouping) the removal
of isolated voronoi vertices with consistent index compaction.  Returns
`(vertices, linear bisectors, quadratic bisectors, voronoi vertex graph)`. -/
def calc_voro (prims : VoroPrims) (lines : List Line) (line_groups : List (ℕ × ℕ))
    (remove_voronoi_vertices_in_regions : Bool) (edge_eps : Frac) (dg : VoroDiagram) :
    List Vec2 × List (Line × Option ℕ × Option ℕ) × List (List Vec2 × ℕ × ℕ) × Graph :=
  -- internal scale for int-conversion
  let eps := edge_eps * edge_eps
  let scale := fceil ((1 : Frac) / eps)
  -- length of infinite edges
  let infline_len : Frac :=
    10 * (lines.foldl (fun m l => fmax m (prims.normF (vsub l.2 l.1))) 1)
  -- voronoi vertices and their graph vertices
  let vertices := dg.verts.map (fun v => vdivs v scale)
  let graph0 := (List.range dg.verts.length).foldl (fun g i => g.AddVertex (i + 1)) ⟨[], []⟩
  let st := voroEdgeLoop prims lines line_groups remove_voronoi_vertices_in_regions
    edge_eps scale dg.verts vertices eps infline_len ⟨graph0, [], []⟩ dg.edges
  -- remove vertices with no connection
  if line_groups.length ≠ 0 then
    let ids := st.graph.verts
    let (g2, removed) := detect ids st.graph
    let removed' := removed.reverse
    let (vertices', linear', parabolic') :=
      removed'.foldl voroCompactStep (vertices, st.linear, st.parabolic)
    (vertices', linear', parabolic', g2)
  else (vertices, st.linear, st.parabolic, st.graph)
where
  detect (ids : List ℕ) (g : Graph) : Graph × List ℕ :=
    let r := ids.foldl detectStep (g, [], 0)
    (r.1, r.2.1)

-- ---------------------------------------------------------------------------
-- the real-angle layer: tl2::mod_pos and line_angle (atan2) of the external
-- tlibs2 library and lines.h, modelled over ℝ; used by convex_split
-- (hull.h:1918-2078) and simplify_contour (hull.h:605-681).
-- ---------------------------------------------------------------------------

/-- The real number denoted by an exact fraction. -/
noncomputable def Frac.toR (a : Frac) : ℝ := (a.num : ℝ) / (a.den : ℝ)

/-- The real point denoted by a vertex. -/
noncomputable def vecR (v : Vec2) : ℝ × ℝ := (v.1.toR, v.2.toR)

/-- Modelled from the spec: `tl2::mod_pos` ("a modular-positive helper"):
`x - y·⌊x/y⌋`. -/
noncomputable def mod_pos (x y : ℝ) : ℝ := x - y * ⌊x / y⌋

/-- `atan2(p.2, p.1)`, with values in `(-π, π]`, as the complex argument. -/
noncomputable def atan2R (p : ℝ × ℝ) : ℝ := Complex.arg ⟨p.1, p.2⟩

/-- Modelled from the spec: the two-point `line_angle` of `lines.h` (not under
`src/`): atan2 of the direction `b - a`. -/
noncomputable def line_angle2 (a b : Vec2) : ℝ := atan2R (vecR (vsub b a))

/-- Modelled from the spec: the four-point `line_angle` of `lines.h`: the angle
of the second line minus the angle of the first. -/
noncomputable def line_angle4 (a b c d : Vec2) : ℝ := line_angle2 c d - line_angle2 a b

-- ---------------------------------------------------------------------------
-- convex_split (hull.h:1918-2078)
-- ---------------------------------------------------------------------------

/-- The corner quantity of convex_split (hull.h:1952-1955):
`mod_pos(π - line_angle(v1,v2, v2,v3), 2π)`. -/
noncomputable def corner_angle (v1 v2 v3 : Vec2) : ℝ :=
  mod_pos (Real.pi - line_angle4 v1 v2 v2 v3) (2 * Real.pi)

/-- The concave-corner test (hull.h:1958): corner angle `> π + eps`. -/
def IsReflex (v1 v2 v3 : Vec2) (epsR : ℝ) : Prop :=
  corner_angle v1 v2 v3 > Real.pi + epsR

open Classical in
/-- The concave-corner scan of convex_split (hull.h:1940-1963): the first
index `i` whose corner `(poly[i], poly[i+1], poly[i+2])` (circularly) tests
concave. -/
noncomputable def find_concave (poly : List Vec2) (epsR : ℝ) : Option ℕ :=
  go 0
where
  go (i : ℕ) : Option ℕ :=
    if i < poly.length then
      if IsReflex (cget poly i) (cget poly (i + 1)) (cget poly (i + 2)) epsR then some i
      else go (i + 1)
    else none
  termination_by poly.length - i

/-- Modelled from the spec: `tl2::intersect_line_line(v1, d1, v3, d2, eps)` of
the external tlibs2 library: solve `v1 + t1·d1 = v3 + t2·d2`; not valid when
the directions are parallel within `eps`.  Returns `(pt1, pt2, valid, t1, t2)`. -/
def intersect_line_line (v1 d1 v3 d2 : Vec2) (eps : Frac) : Vec2 × Vec2 × Bool × Frac × Frac :=
  let det := crossZ d1 d2
  if fleB (fabs det) eps then ((0, 0), (0, 0), false, 0, 0)
  else
    let rhs := vsub v3 v1
    let t1 := crossZ rhs d2 / det
    let t2 := fneg (crossZ d1 rhs) / det
    (vadd v1 (vscale t1 d1), vadd v3 (vscale t2 d2), true, t1, t2)

/-- The intersection hunt of convex_split (hull.h:1967-2005): walk the contour
segments from `c+2` on (excluding the two segments at the reflex corner),
taking the first whose line intersection has parameter `t2 ∈ [0, 1)`; the
recorded index is that of the segment's end vertex. -/
def find_intersection (poly : List Vec2) (c : ℕ) (eps : Frac) : Option ℕ :=
  let v1 := cget poly c
  let v2 := cget poly (c + 1)
  let d1 := vsub v2 v1
  go v1 d1 (c + 2) (poly.length - 2)
where
  go (v1 d1 : Vec2) (k : ℕ) : ℕ → Option ℕ
  | 0 => none
  | cnt + 1 =>
    let v3 := cget poly k
    let v4 := cget poly (k + 1)
    let d2 := vsub v4 v3
    let r := intersect_line_line v1 d1 v3 d2 eps
    if r.2.2.1 && fleB 0 r.2.2.2.2 && fltB r.2.2.2.2 1 && equalsV r.1 r.2.1 eps then
      some ((k + 1) % poly.length)
    else go v1 d1 (k + 1) cnt

/-- The circular vertex walk of the polygon split (hull.h:2023-2042): collect
from position `a` up to and including position `b` (both modulo the length). -/
def collectPoly (poly : List Vec2) (a b : ℕ) : List Vec2 :=
  go a (poly.length + 1)
where
  go (k : ℕ) : ℕ → List Vec2
  | 0 => []
  | steps + 1 =>
    let v := cget poly k
    if k % poly.length = b % poly.length then [v] else v :: go (k + 1) steps

open Classical in
/-- `convex_split` (hull.h:1918-2078), with explicit fuel for the recursion
(`none` = fuel exhausted).  A polygon of at most three vertices, a polygon
without a concave corner, and a polygon whose concave ray hunt finds no
intersection all yield the empty split list. -/
noncomputable def convex_split (eps : Frac) : ℕ → List Vec2 → Option (List (List Vec2))
  | 0, _ => none
  | fuel + 1, poly =>
    if poly.length ≤ 3 then some []
    else
      match find_concave poly (Frac.toR eps) with
      | none => some []
      | some c =>
        match find_intersection poly c eps with
        | none => some []
        | some idxInter =>
          let poly1 := collectPoly poly idxInter (c + 1)
          let poly2 := collectPoly poly (c + 1) idxInter
          do
            let s1 ← convex_split eps fuel poly1
            let s2 ← convex_split eps fuel poly2
            some ((if s1.isEmpty then [poly1] else s1.filter (fun p => 3 ≤ p.length)) ++
                  (if s2.isEmpty then [poly2] else s2.filter (fun p => 3 ≤ p.length)))

-- ---------------------------------------------------------------------------
-- simplify_contour (hull.h:605-681)
-- ---------------------------------------------------------------------------

/-- The horizontal-or-vertical test of the staircase-removal pass
(hull.h:633-636), written with the constants of the source: `0`, `π`, `π/2`
and `π/(3/2)`. -/
def IsHV (angle epsR : ℝ) : Prop :=
  |angle - 0| ≤ epsR ∨ |angle - Real.pi| ≤ epsR ∨
  |angle - Real.pi / 2| ≤ epsR ∨ |angle - Real.pi / ((3 : ℝ) / 2)| ≤ epsR

open Classical in
/-- The staircase-removal pass of `simplify_contour` (hull.h:617-654): four
consecutive circular vertices `v1..v4` with `|v4-v1| ≤ min_dist`, `v2-v3`
tested horizontal/vertical, and equal line angles before and after, are
collapsed by erasing `v4` and then `v3`. -/
noncomputable def staircasePass (min_dist : Frac) (epsR : ℝ) :
    ℕ → ℕ → List Vec2 → List Vec2
  | 0, _, contour => contour
  | fuel + 1, curidx, contour =>
    if ¬ (curidx < contour.length + 1) then contour
    else
      let vert1 := cget contour curidx
      let vert2 := cget contour (curidx + 1)
      let vert3 := cget contour (curidx + 2)
      let vert4 := cget contour (curidx + 3)
      if fltB (min_dist * min_dist) (normSq (vsub vert4 vert1)) then
        staircasePass min_dist epsR fuel (curidx + 1) contour
      else
        let angle := mod_pos (line_angle2 vert2 vert3) (2 * Real.pi)
        if IsHV angle epsR then
          let angle1 := mod_pos (line_angle2 vert1 vert2) (2 * Real.pi)
          let angle2 := mod_pos (line_angle2 vert3 vert4) (2 * Real.pi)
          if |angle1 - angle2| ≤ epsR then
            let c1 := contour.eraseIdx ((curidx + 3) % contour.length)
            let c2 := c1.eraseIdx ((curidx + 2) % c1.length)
            staircasePass min_dist epsR fuel (curidx + 1) c2
          else staircasePass min_dist epsR fuel (curidx + 1) contour
        else staircasePass min_dist epsR fuel (curidx + 1) contour

open Classical in
/-- The collinear-vertex-removal pass of `simplify_contour` (hull.h:660-680):
drop a middle vertex whose turn angle, brought into `(-π, π]`, is smaller than
`eps` in magnitude. -/
noncomputable def collinearPass (epsR : ℝ) : ℕ → ℕ → List Vec2 → List Vec2
  | 0, _, contour => contour
  | fuel + 1, curidx, contour =>
    if ¬ (curidx < contour.length * 2 - 1) then contour
    else
      let vert1 := cget contour (curidx - 1)
      let vert2 := cget contour curidx
      let vert3 := cget contour (curidx + 1)
      let angle0 := mod_pos (line_angle4 vert1 vert2 vert2 vert3) (2 * Real.pi)
      let angle := if angle0 > Real.pi then angle0 - 2 * Real.pi else angle0
      if |angle| < epsR then
        collinearPass epsR fuel curidx (contour.eraseIdx (curidx % contour.length))
      else collinearPass epsR fuel (curidx + 1) contour

/-- `simplify_contour` (hull.h:605-681): the staircase pass followed by the
collinear pass. -/
noncomputable def simplify_contour (min_dist : Frac) (epsR : ℝ) (fuel : ℕ)
    (contour : List Vec2) : List Vec2 :=
  collinearPass epsR fuel 1 (staircasePass min_dist epsR fuel 0 contour)

/-- The failing input for the hull-equivalence claim: a triangle, listed
starting from `(1, 0)`. -/
def hullCexInput : List Vec2 := [(1, 0), (0, 1), (0, 0)]

/-- Concrete instance for C6: two segments forming one group; an edge between
their cells is discarded. -/
def voroC6Lines : List Line := [((0, 0), (1, 0)), ((1, 0), (0, 1))]

/-- A diagram with one vertex and one (finite, would-be) edge between cells of
segments 0 and 1, both of group 0. -/
def voroC6Diagram : VoroDiagram :=
  ⟨[(0, 0)],
   [⟨false, false, some 0, some 0, some ⟨0, SrcCat.seg⟩, some ⟨1, SrcCat.seg⟩⟩]⟩

/-- Trivial primitive functions for concrete runs. -/
def trivPrims : VoroPrims := ⟨fun _ => 0, fun _ _ _ _ _ => false, fun _ _ _ init => init⟩

/-- The linear bisector that the edge loop emits for an infinite edge with
proper vertex `i`: the existing endpoint, and that endpoint extended along the
(possibly inverted) rotated segment-point difference, normalised by `normF`
and scaled by the infinite-edge length. -/
def infinite_bisector (rv : List Vec2) (sc il : Frac) (normF : Vec2 → Frac) (i : ℕ)
    (perpdir : Vec2) : Line × Option ℕ × Option ℕ :=
  let lineorg := vdivs (rv.getD i (0, 0)) sc
  let linedir0 : Vec2 := (perpdir.2, -perpdir.1)
  let linedir := vscale il (vdivs linedir0 (normF linedir0))
  ((lineorg, vadd lineorg linedir), some i, none)

/-- The infinite-edge length of `calc_voro` (hull.h:1279-1287): ten times the
larger of 1 and the longest input segment. -/
def infline_length (normF : Vec2 → Frac) (lines : List Line) : Frac :=
  10 * (lines.foldl (fun m l => fmax m (normF (vsub l.2 l.1))) 1)

/-- The lines of the infinite-edge counterexample: two parallel horizontal
segments of length 3/10 each (both shorter than 1). -/
def voroC7Lines : List Line := [((0, 0), (mkF 3 10, 0)), ((0, 1), (mkF 3 10, 1))]

/-- An exact euclidean norm on the two vectors the counterexample run applies
it to. -/
def voroC7Norm : Vec2 → Frac := fun v =>
  if veqE v (mkF 3 10, 0) then mkF 3 10
  else if veqE v (-1, 0) then 1
  else 0

/-- Primitives for the infinite-edge counterexample. -/
def voroC7Prims : VoroPrims := ⟨voroC7Norm, fun _ _ _ _ _ => false, fun _ _ _ init => init⟩

/-- The diagram of the counterexample: one vertex (scaled coordinates
`(0, 50)`, i.e. `(0, 1/2)`), and the infinite bisector edge between the two
left endpoints, extending leftwards. -/
def voroC7Diagram : VoroDiagram :=
  ⟨[(0, 50)],
   [⟨false, false, some 0, none, some ⟨0, SrcCat.startPt⟩, some ⟨1, SrcCat.startPt⟩⟩]⟩

/-- The index shift of `RemoveVertexIdx`. -/
def idxShift (k i : ℕ) : ℕ := if k < i then i - 1 else i

/-- The failing input for the convex-split claim: a simple rectilinear
staircase polygon, counterclockwise. -/
def csplitCexInput : List Vec2 :=
  [(0, 0), (1, 0), (1, -5), (4, -5), (4, 0), (5, 0), (5, -4), (6, -4), (6, 8), (0, 8)]

/-- The non-convex polygon that `convex_split` emits for `csplitCexInput`. -/
def csplitBadQuad : List Vec2 := [(4, 0), (5, 0), (5, -4), (1, 0)]

/-- The failing contour for the staircase-removal claim: a staircase with a
downward-vertical middle segment. -/
def simpCexContour : List Vec2 := [(0, 0), (1, -1), (1, -2), (2, -3), (2, 0)]

/-- Positive-denominator invariant of a vertex (all concrete inputs satisfy
it; `mkF` results preserve it). -/
def PD (v : Vec2) : Prop := 0 < v.1.den ∧ 0 < v.2.den

instance (v : Vec2) : Decidable (PD v) := by
  unfold PD
  infer_instance

/-- Symmetry of a directed edge list: every edge has its reverse. -/
def SymE (E : List (ℕ × ℕ × Frac)) : Prop := ∀ x ∈ E, (x.2.1, x.1, x.2.2) ∈ E

/-- All optional bisector indices below a bound. -/
def LinB (L : List (Line × Option ℕ × Option ℕ)) (n : ℕ) : Prop :=
  ∀ lb ∈ L, (∀ j, lb.2.1 = some j → j < n) ∧ (∀ j, lb.2.2 = some j → j < n)

/-- All parabolic bisector indices below a bound. -/
def ParB (P : List (List Vec2 × ℕ × ℕ)) (n : ℕ) : Prop :=
  ∀ pb ∈ P, pb.2.1 < n ∧ pb.2.2 < n

-- ===========================================================================
-- theorems
-- ===========================================================================

/-- **C10.**  For every input with fewer than three vertices,
`calc_delaunay_iterative` returns empty voronoi-vertex, triangle and neighbour
lists rather than failing (hull.h:949-950). -/
theorem calc_delaunay_iterative_small_input (fuel : ℕ) (verts : List Vec2) (eps : Frac)
    (h : verts.length < 3) :
    calc_delaunay_iterative fuel verts eps = some ([], [], []) := by
  unfold calc_delaunay_iterative
  simp [h]

/-- Witness for C10: the one-point input. -/
theorem calc_delaunay_iterative_small_input_witness :
    ([((0 : Frac), (0 : Frac))] : List Vec2).length < 3 ∧
      calc_delaunay_iterative 5 [((0 : Frac), (0 : Frac))] (mkF 1 100000) = some ([], [], []) :=
  ⟨by decide, calc_delaunay_iterative_small_input 5 _ _ (by decide)⟩

/-- **C5.**  On the canonical five-vertex graph of `unittests/dijkstra.cpp`,
dijkstra from `v1` returns the predecessor array `[none, v1, v2, v3, v3]`
(vertices numbered from 0), over both the adjacency-matrix and the
adjacency-list representation. -/
theorem dijkstra_canonical :
    dijkstra 5 dijkTestMatrix.GetWeight 0 = [none, some 0, some 1, some 2, some 2] ∧
    dijkstra 5 dijkTestList.GetWeight 0 = dijkstra 5 dijkTestMatrix.GetWeight 0 := by
  decide

/-- **C1 (code_bug).**  The claim asserts all three hull implementations agree
up to rotation of the starting vertex.  On the three-point input
`[(1,0),(0,1),(0,0)]` (no duplicates to drop), `calc_hull_iterative` returns
the deduplicated input verbatim (its `≤ 3` early return skips the angular
sort), while `calc_hull_contour` returns `[(0,0),(0,1),(1,0)]`; neither is a
rotation of the other (the sequences differ in orientation). -/
theorem hull_iterative_contour_disagree :
    calc_hull_iterative hullCexInput (mkF 1 100000) = [(1, 0), (0, 1), (0, 0)] ∧
    calc_hull_contour hullCexInput (mkF 1 100000) = [(0, 0), (0, 1), (1, 0)] ∧
    isRotationOf (calc_hull_iterative hullCexInput (mkF 1 100000))
      (calc_hull_contour hullCexInput (mkF 1 100000)) = false ∧
    isRotationOf (calc_hull_contour hullCexInput (mkF 1 100000))
      (calc_hull_iterative hullCexInput (mkF 1 100000)) = false := by
  decide

set_option maxRecDepth 400000 in
/-- **C2 (code_bug).**  The claim asserts the delaunay property (no input
point beyond a triangle's corners strictly inside its circumcircle, up to
`eps`) for every output of `calc_delaunay_iterative`.  On the six-point input
`delaunayCexInput` — whose fourth and fifth points are distinct but
componentwise within `eps = 10⁻⁵` — the run completes (returns `some`) and the
property fails: the output contains a triangle whose circumcircle strictly
contains the input point `(17, 4)` with a margin of about ten length units
(`dist + eps < rad` with room to spare). -/
theorem delaunay_property_violated :
    (calc_delaunay_iterative 100 delaunayCexInput (mkF 1 100000)).isSome = true ∧
    (calc_delaunay_iterative 100 delaunayCexInput (mkF 1 100000)).map
      (fun r => delaunay_property_holds delaunayCexInput r.2.1 (mkF 1 100000)) = some false := by
  decide

/-- A voronoi edge whose two adjoining cells lie in the same group leaves the
edge-loop state untouched. -/
theorem voroStep_same_group (prims : VoroPrims) (lines : List Line)
    (groups : List (ℕ × ℕ)) (flag : Bool) (ee sc : Frac) (rv vv : List Vec2)
    (eps il : Frac) (st : VoroState) (e : VoroEdge)
    (hg : groups ≠ []) (hsame : sameGroupB groups e = true) :
    voroStep prims lines groups flag ee sc rv vv eps il st e = st := by
  have hlen : (groups.length != 0) = true := by
    simpa [bne_iff_ne] using fun h => hg (List.length_eq_zero.mp h)
  unfold voroStep
  by_cases hsec : e.secondary = true
  · simp [hsec]
  · simp only [Bool.not_eq_true] at hsec
    simp [hsec, hlen, hsame]

/-- Dropping a state-preserving edge from the edge list does not change the
edge loop. -/
theorem voroEdgeLoop_drop (prims : VoroPrims) (lines : List Line)
    (groups : List (ℕ × ℕ)) (flag : Bool) (ee sc : Frac) (rv vv : List Vec2)
    (eps il : Frac) (st : VoroState) (l1 l2 : List VoroEdge) (e : VoroEdge)
    (he : ∀ st', voroStep prims lines groups flag ee sc rv vv eps il st' e = st') :
    voroEdgeLoop prims lines groups flag ee sc rv vv eps il st (l1 ++ e :: l2) =
      voroEdgeLoop prims lines groups flag ee sc rv vv eps il st (l1 ++ l2) := by
  unfold voroEdgeLoop
  rw [List.foldl_append, List.foldl_append, List.foldl_cons, he]

/-- **C6.**  In `calc_voro` with a non-empty grouping, a voronoi edge whose
two generating line segments belong to the same group is discarded entirely:
removing the edge from the diagram leaves all four outputs (vertices, linear
bisectors, parabolic bisectors, roadmap graph) unchanged, so the edge emits no
bisector and contributes no graph edge. -/
theorem calc_voro_discards_same_group (prims : VoroPrims) (lines : List Line)
    (groups : List (ℕ × ℕ)) (flag : Bool) (edge_eps : Frac) (verts : List Vec2)
    (l1 l2 : List VoroEdge) (e : VoroEdge)
    (hg : groups ≠ []) (hsame : sameGroupB groups e = true) :
    calc_voro prims lines groups flag edge_eps ⟨verts, l1 ++ e :: l2⟩ =
      calc_voro prims lines groups flag edge_eps ⟨verts, l1 ++ l2⟩ := by
  unfold calc_voro
  dsimp only
  rw [voroEdgeLoop_drop]
  intro st'
  exact voroStep_same_group _ _ _ _ _ _ _ _ _ _ _ _ hg hsame

/-- Witness for C6: at the concrete instance the hypotheses hold and the
discard equation follows by the theorem. -/
theorem calc_voro_discards_same_group_witness :
    ([((0 : ℕ), (2 : ℕ))] ≠ ([] : List (ℕ × ℕ))) ∧
    sameGroupB [(0, 2)] ⟨false, false, some 0, some 0, some ⟨0, SrcCat.seg⟩, some ⟨1, SrcCat.seg⟩⟩ = true ∧
    calc_voro trivPrims voroC6Lines [(0, 2)] false (mkF 1 10) voroC6Diagram =
      calc_voro trivPrims voroC6Lines [(0, 2)] false (mkF 1 10) ⟨[(0, 0)], []⟩ :=
  ⟨by decide, by decide,
   calc_voro_discards_same_group trivPrims voroC6Lines [(0, 2)] false (mkF 1 10)
     [(0, 0)] [] [] _ (by decide) (by decide)⟩

/-- An edge one of whose endpoints is not a proper diagram vertex adds nothing
to the roadmap graph. -/
theorem voroStep_no_graph_edge (prims : VoroPrims) (lines : List Line)
    (groups : List (ℕ × ℕ)) (flag : Bool) (ee sc : Frac) (rv vv : List Vec2)
    (eps il : Frac) (st : VoroState) (e : VoroEdge)
    (h : e.vert0 = none ∨ e.vert1 = none) :
    (voroStep prims lines groups flag ee sc rv vv eps il st e).graph = st.graph := by
  have hval : ((get_vertex_idx vv.length e.vert0).isSome &&
      (get_vertex_idx vv.length e.vert1).isSome) = false := by
    rcases h with h | h <;> simp [h, get_vertex_idx]
  unfold voroStep
  dsimp only
  simp only [hval, Bool.false_eq_true, if_false]
  repeat' split
  all_goals rfl

/-- Every edge-loop step only appends to the linear bisector list. -/
theorem voroStep_linear_prefix (prims : VoroPrims) (lines : List Line)
    (groups : List (ℕ × ℕ)) (flag : Bool) (ee sc : Frac) (rv vv : List Vec2)
    (eps il : Frac) (st : VoroState) (e : VoroEdge) :
    ∃ t, (voroStep prims lines groups flag ee sc rv vv eps il st e).linear = st.linear ++ t := by
  unfold voroStep
  dsimp only
  repeat' split
  all_goals first
    | exact ⟨[], (List.append_nil _).symm⟩
    | exact ⟨_, rfl⟩

/-- A linear bisector present in the state stays present through the loop. -/
theorem voroEdgeLoop_linear_mem (prims : VoroPrims) (lines : List Line)
    (groups : List (ℕ × ℕ)) (flag : Bool) (ee sc : Frac) (rv vv : List Vec2)
    (eps il : Frac) (st : VoroState) (es : List VoroEdge)
    (x : Line × Option ℕ × Option ℕ) (hx : x ∈ st.linear) :
    x ∈ (voroEdgeLoop prims lines groups flag ee sc rv vv eps il st es).linear := by
  induction es generalizing st with
  | nil => exact hx
  | cons e es ih =>
    refine ih _ ?_
    obtain ⟨t, ht⟩ := voroStep_linear_prefix prims lines groups flag ee sc rv vv eps il st e
    rw [ht]
    exact List.mem_append_left _ hx

/-- A primary, non-curved edge with exactly the first endpoint proper, passing
the group filters and with both cell segment points defined, appends exactly
the extended infinite bisector and touches nothing else. -/
theorem voroStep_infinite_emits (prims : VoroPrims) (lines : List Line)
    (groups : List (ℕ × ℕ)) (flag : Bool) (ee sc : Frac) (rv vv : List Vec2)
    (eps il : Frac) (st : VoroState) (e : VoroEdge) (i : ℕ) (vec twinvec : Vec2)
    (hsec : e.secondary = false) (hcur : e.curved = false)
    (hv0 : e.vert0 = some i) (hv1 : e.vert1 = none) (hi : i < vv.length)
    (hgrp : ((groups.length != 0) && sameGroupB groups e) = false)
    (hreg : ((groups.length != 0) && flag && vertInsideB prims lines groups vv eps e) = false)
    (hvec : get_segment_point lines e false = some vec)
    (htwin : get_segment_point lines e true = some twinvec) :
    voroStep prims lines groups flag ee sc rv vv eps il st e =
      { st with linear := st.linear ++
          [infinite_bisector rv sc il prims.normF i (vsub vec twinvec)] } := by
  have hfin : e.finite = false := by simp [VoroEdge.finite, hv1]
  unfold voroStep
  simp only [hsec, Bool.false_eq_true, if_false, hgrp, hreg, hfin, hcur, hv0, hv1,
    get_vertex_idx, hi, if_true, hvec, htwin, Bool.false_and, Bool.and_false,
    Option.isSome_some, Option.isSome_none, Bool.and_true, Bool.not_false,
    Option.isNone_some, infinite_bisector, voroStep.dg0]

/-- **C7 (amended: the extension length is 10·max(1, longest segment)).**
For an infinite voronoi edge that survives the group filters: (a) no roadmap
graph edge is ever added for it — indeed any edge missing a proper endpoint
leaves the graph of any state untouched — and (b) the edge loop of `calc_voro`
emits for it a linear bisector whose missing endpoint is the existing endpoint
extended along the bisector direction (the normalised rotated difference of
the two cells' segment points) by `infline_length`, i.e. by ten times the
larger of 1 and the longest input segment. -/
theorem calc_voro_infinite_edge (prims : VoroPrims) (lines : List Line)
    (groups : List (ℕ × ℕ)) (flag : Bool) (ee sc : Frac) (rv vv : List Vec2)
    (eps : Frac) (st0 : VoroState) (l1 l2 : List VoroEdge) (e : VoroEdge)
    (i : ℕ) (vec twinvec : Vec2)
    (hsec : e.secondary = false) (hcur : e.curved = false)
    (hv0 : e.vert0 = some i) (hv1 : e.vert1 = none) (hi : i < vv.length)
    (hgrp : ((groups.length != 0) && sameGroupB groups e) = false)
    (hreg : ((groups.length != 0) && flag
      && vertInsideB prims lines groups vv eps e) = false)
    (hvec : get_segment_point lines e false = some vec)
    (htwin : get_segment_point lines e true = some twinvec) :
    (∀ st' : VoroState, ∀ e' : VoroEdge, e'.vert0 = none ∨ e'.vert1 = none →
      (voroStep prims lines groups flag ee sc rv vv eps
        (infline_length prims.normF lines) st' e').graph = st'.graph) ∧
    infinite_bisector rv sc (infline_length prims.normF lines) prims.normF i
        (vsub vec twinvec) ∈
      (voroEdgeLoop prims lines groups flag ee sc rv vv eps
        (infline_length prims.normF lines) st0 (l1 ++ e :: l2)).linear := by
  constructor
  · intro st' e' h'
    exact voroStep_no_graph_edge prims lines groups flag ee sc rv vv eps _ st' e' h'
  · unfold voroEdgeLoop
    rw [List.foldl_append, List.foldl_cons]
    have hstep := voroStep_infinite_emits prims lines groups flag ee sc rv vv eps
      (infline_length prims.normF lines)
      (List.foldl (voroStep prims lines groups flag ee sc rv vv eps
        (infline_length prims.normF lines)) st0 l1) e i vec twinvec
      hsec hcur hv0 hv1 hi hgrp hreg hvec htwin
    rw [hstep]
    exact voroEdgeLoop_linear_mem prims lines groups flag ee sc rv vv eps _ _ l2 _
      (by simp)

/-- Witness for C7: the two-parallel-segment instance; the hypotheses hold at
the concrete edge and the conclusion follows by the theorem. -/
theorem calc_voro_infinite_edge_witness :
    (⟨false, false, some 0, none, some ⟨0, SrcCat.startPt⟩,
        some ⟨1, SrcCat.startPt⟩⟩ : VoroEdge).vert1 = none ∧
    get_segment_point voroC7Lines
      ⟨false, false, some 0, none, some ⟨0, SrcCat.startPt⟩, some ⟨1, SrcCat.startPt⟩⟩
      false = some (0, 0) ∧
    infinite_bisector [((0 : Frac), (50 : Frac))] 100
        (infline_length voroC7Prims.normF voroC7Lines) voroC7Prims.normF 0
        (vsub (0, 0) (0, 1)) ∈
      (voroEdgeLoop voroC7Prims voroC7Lines [] false (mkF 1 10) 100
        [((0 : Frac), (50 : Frac))] [((0 : Frac), mkF 1 2)] (mkF 1 100)
        (infline_length voroC7Prims.normF voroC7Lines)
        ⟨⟨[1], []⟩, [], []⟩
        ([] ++ (⟨false, false, some 0, none, some ⟨0, SrcCat.startPt⟩,
          some ⟨1, SrcCat.startPt⟩⟩ : VoroEdge) :: [])).linear :=
  ⟨by decide, by decide,
   (calc_voro_infinite_edge voroC7Prims voroC7Lines [] false (mkF 1 10) 100
     [((0 : Frac), (50 : Frac))] [((0 : Frac), mkF 1 2)] (mkF 1 100)
     ⟨⟨[1], []⟩, [], []⟩ [] [] _ 0 (0, 0) (0, 1)
     (by decide) (by decide) (by decide) (by decide) (by decide) (by decide)
     (by decide) (by decide) (by decide)).2⟩

/-- **C7 counterexample.**  The claim states the missing endpoint extends by
ten times the maximum input-segment length.  With both segments of length
3/10, `calc_voro` emits the bisector `((0, 1/2), (-10, 1/2))` — the endpoint
extended by `10·max(1, 3/10) = 10` — and **not** the endpoint
`(0,1/2) + (10 · 3/10)·(-1, 0) = (-3, 1/2)` the claim's formula gives.  The
final two conjuncts certify that the supplied norm function is exactly
euclidean on the two vectors the run applies it to, and that the graph gets
no edge. -/
theorem calc_voro_infline_length_cex :
    (calc_voro voroC7Prims voroC7Lines [] false (mkF 1 10) voroC7Diagram).2.1 =
      [(((0, mkF 1 2), (-10, mkF 1 2)), some 0, none)] ∧
    veqE (-10, mkF 1 2) (vadd (0, mkF 1 2) (vscale 3 (-1, 0))) = false ∧
    voroC7Norm (mkF 3 10, 0) * voroC7Norm (mkF 3 10, 0) = normSq (mkF 3 10, 0) ∧
    fleB 0 (voroC7Norm (mkF 3 10, 0)) = true ∧
    voroC7Norm (-1, 0) * voroC7Norm (-1, 0) = normSq (-1, 0) ∧
    fleB 0 (voroC7Norm (-1, 0)) = true ∧
    (calc_voro voroC7Prims voroC7Lines [] false (mkF 1 10) voroC7Diagram).2.2.2.edges = [] := by
  decide

/-- `get_vertex_idx` only yields indices below the vertex count. -/
theorem get_vertex_idx_lt (n : ℕ) (v : Option ℕ) (j : ℕ)
    (h : get_vertex_idx n v = some j) : j < n := by
  cases v with
  | none => simp [get_vertex_idx] at h
  | some i =>
    by_cases hi : i < n
    · simp only [get_vertex_idx, if_pos hi, Option.some.injEq] at h
      exact h ▸ hi
    · simp [get_vertex_idx, if_neg hi] at h

/-- Appending a symmetric pair preserves edge-list symmetry. -/
theorem symE_extend {E : List (ℕ × ℕ × Frac)} (h : SymE E) (a b : ℕ) (w : Frac) :
    SymE (E ++ [(a, b, w)] ++ [(b, a, w)]) := by
  intro x hx
  simp only [List.mem_append, List.mem_singleton] at hx ⊢
  rcases hx with (hx | hx) | hx
  · exact Or.inl (Or.inl (h x hx))
  · subst hx; exact Or.inr rfl
  · subst hx; exact Or.inl (Or.inr rfl)

/-- Appending an in-range bisector preserves `LinB`. -/
theorem linB_extend {L : List (Line × Option ℕ × Option ℕ)} {n : ℕ} (h : LinB L n)
    {x : Line × Option ℕ × Option ℕ}
    (hx : (∀ j, x.2.1 = some j → j < n) ∧ (∀ j, x.2.2 = some j → j < n)) :
    LinB (L ++ [x]) n := by
  intro lb hlb
  rcases List.mem_append.mp hlb with hlb | hlb
  · exact h lb hlb
  · rw [List.mem_singleton.mp hlb]; exact hx

/-- Appending an in-range parabolic bisector preserves `ParB`. -/
theorem parB_extend {P : List (List Vec2 × ℕ × ℕ)} {n : ℕ} (h : ParB P n)
    {y : List Vec2 × ℕ × ℕ} (hy : y.2.1 < n ∧ y.2.2 < n) :
    ParB (P ++ [y]) n := by
  intro pb hpb
  rcases List.mem_append.mp hpb with hpb | hpb
  · exact h pb hpb
  · rw [List.mem_singleton.mp hpb]; exact hy

/-- One edge-loop step preserves the graph's vertex list. -/
theorem voroStep_verts (prims : VoroPrims) (lines : List Line)
    (groups : List (ℕ × ℕ)) (flag : Bool) (ee sc : Frac) (rv vv : List Vec2)
    (eps il : Frac) (st : VoroState) (e : VoroEdge) :
    (voroStep prims lines groups flag ee sc rv vv eps il st e).graph.verts = st.graph.verts := by
  unfold voroStep
  dsimp only
  repeat' split
  all_goals rfl

/-- One edge-loop step preserves symmetry of the graph edges and the index
bounds of both bisector lists. -/
theorem voroStep_inv (prims : VoroPrims) (lines : List Line)
    (groups : List (ℕ × ℕ)) (flag : Bool) (ee sc : Frac) (rv vv : List Vec2)
    (eps il : Frac) (st : VoroState) (e : VoroEdge)
    (hsym : SymE st.graph.edges) (hlin : LinB st.linear vv.length)
    (hpar : ParB st.parabolic vv.length) :
    SymE (voroStep prims lines groups flag ee sc rv vv eps il st e).graph.edges ∧
    LinB (voroStep prims lines groups flag ee sc rv vv eps il st e).linear vv.length ∧
    ParB (voroStep prims lines groups flag ee sc rv vv eps il st e).parabolic vv.length := by
  unfold voroStep
  dsimp only
  repeat' split
  all_goals refine ⟨?_, ?_, ?_⟩
  all_goals first
    | exact hsym
    | exact hlin
    | exact hpar
    | ( -- graph extended by a symmetric pair
       show SymE ((st.graph.AddEdgeIdx _ _ _).AddEdgeIdx _ _ _).edges
       simp only [Graph.AddEdgeIdx, List.append_assoc]
       rw [← List.append_assoc]
       exact symE_extend hsym _ _ _)
    | ( -- linear extended by one bisector carrying get_vertex_idx indices
       refine linB_extend hlin ⟨?_, ?_⟩ <;> exact fun j hj => get_vertex_idx_lt _ _ _ hj)
    | ( -- parabolic extended; the branch conditions force both indices proper
       refine parB_extend hpar ⟨?_, ?_⟩ <;>
         [rcases hv : get_vertex_idx vv.length e.vert0 with _ | j;
          rcases hv : get_vertex_idx vv.length e.vert1 with _ | j] <;>
         first
           | exact get_vertex_idx_lt _ _ _ hv
           | simp_all)

/-- `identIndex.go` over a prefix not containing the identifier. -/
theorem identIndex_go_append (id i : ℕ) (pre suf : List ℕ) (h : id ∉ pre) :
    identIndex.go id i (pre ++ id :: suf) = some (i + pre.length) := by
  induction pre generalizing i with
  | nil => simp [identIndex.go]
  | cons a pre ih =>
    have ha : ¬ (a = id) := fun he => h (he ▸ List.mem_cons_self a pre)
    simp only [List.cons_append, identIndex.go, if_neg ha, List.append_eq]
    rw [ih (i + 1) (fun hm => h (List.mem_cons_of_mem a hm))]
    congr 1
    simp [List.length_cons]
    omega

/-- `identIndex` finds an identifier right behind a prefix free of it. -/
theorem identIndex_append (pre suf : List ℕ) (id : ℕ) (h : id ∉ pre) :
    identIndex (pre ++ id :: suf) id = some pre.length := by
  unfold identIndex
  rw [identIndex_go_append id 0 pre suf h, Nat.zero_add]

/-- Erasing the junction element of an append. -/
theorem eraseIdx_append_length (pre : List ℕ) (x : ℕ) (suf : List ℕ) :
    (pre ++ x :: suf).eraseIdx pre.length = pre ++ suf := by
  induction pre with
  | nil => rfl
  | cons a pre ih => simpa [List.eraseIdx] using ih

/-- Removing an untouched index maps the edge list by the shift. -/
theorem removeVertexIdx_edges (g : Graph) (k : ℕ)
    (h : ∀ x ∈ g.edges, x.1 ≠ k ∧ x.2.1 ≠ k) :
    (g.RemoveVertexIdx k).edges =
      g.edges.map (fun e => (idxShift k e.1, idxShift k e.2.1, e.2.2)) := by
  unfold Graph.RemoveVertexIdx
  rw [List.filter_eq_self.mpr]
  · rfl
  · intro x hx
    rcases h x hx with ⟨h1, h2⟩
    simp [h1, h2]

/-- The shift preserves symmetry of the edge list. -/
theorem symE_map_shift {E : List (ℕ × ℕ × Frac)} (h : SymE E) (k : ℕ) :
    SymE (E.map (fun e => (idxShift k e.1, idxShift k e.2.1, e.2.2))) := by
  intro x hx
  rcases List.mem_map.mp hx with ⟨y, hy, hxy⟩
  subst hxy
  exact List.mem_map.mpr ⟨(y.2.1, y.1, y.2.2), h y hy, rfl⟩

/-- The single detection step of `calc_voro.detect`. -/
theorem detect_step_eq (g : Graph) (rem : List ℕ) (i id : ℕ) :
    (fun (acc : Graph × List ℕ × ℕ) id =>
      let (g, rem, i) := acc
      if (g.outgoingIdent id).isEmpty then (g.RemoveVertexIdent id, rem ++ [i], i + 1)
      else (g, rem, i + 1)) (g, rem, i) id =
    (if (g.outgoingIdent id).isEmpty then (g.RemoveVertexIdent id, rem ++ [i], i + 1)
     else (g, rem, i + 1)) := rfl

/-- A strictly ascending snoc bounds every element of the prefix. -/
theorem chain'_snoc_bound {l : List ℕ} {b : ℕ} (h : List.Chain' (· < ·) (l ++ [b])) :
    ∀ x ∈ l, x < b := by
  have hp := List.chain'_iff_pairwise.mp h
  exact fun x hx => (List.pairwise_append.mp hp).2.2 x hx b (List.mem_singleton_self b)

/-- Relaxing the final bound of an ascending snoc. -/
theorem chain'_snoc_mono {l : List ℕ} {b c : ℕ} (h : List.Chain' (· < ·) (l ++ [b]))
    (hbc : b ≤ c) : List.Chain' (· < ·) (l ++ [c]) := by
  rcases List.chain'_append.mp h with ⟨h1, _, h3⟩
  refine List.chain'_append.mpr ⟨h1, List.chain'_singleton c, ?_⟩
  intro x hx y hy
  have hxb : x < b := h3 x hx b rfl
  have hyc : c = y := by simpa using hy
  omega

/-- Extending an ascending snoc by a larger bound. -/
theorem chain'_snoc_snoc {l : List ℕ} {b c : ℕ} (h : List.Chain' (· < ·) (l ++ [b]))
    (hbc : b < c) : List.Chain' (· < ·) ((l ++ [b]) ++ [c]) := by
  refine List.chain'_append.mpr ⟨h, List.chain'_singleton c, ?_⟩
  intro x hx y hy
  have hyc : c = y := by simpa using hy
  have hxb : b = x := by
    rw [List.getLast?_concat] at hx
    simpa using hx
  omega

/-- Raising the head bound of a strictly descending list. -/
theorem chain'_cons_ge {l : List ℕ} {a b : ℕ} (h : List.Chain' (· > ·) (a :: l))
    (hab : a ≤ b) : List.Chain' (· > ·) (b :: l) := by
  cases l with
  | nil => exact List.chain'_singleton b
  | cons c l =>
    rcases List.chain'_cons.mp h with ⟨h1, h2⟩
    exact List.chain'_cons.mpr ⟨by omega, h2⟩

/-- `identIndex.go` finds a member, at an index below the length. -/
theorem identIndex_go_mem (id : ℕ) : ∀ (l : List ℕ) (i : ℕ), id ∈ l →
    ∃ q, identIndex.go id i l = some (i + q) ∧ q < l.length := by
  intro l
  induction l with
  | nil => intro i h; cases h
  | cons a l ih =>
    intro i h
    by_cases ha : a = id
    · exact ⟨0, by simp [identIndex.go, ha], by simp⟩
    · have h' : id ∈ l := by
        rcases List.mem_cons.mp h with h' | h'
        · exact absurd h'.symm ha
        · exact h'
      rcases ih (i + 1) h' with ⟨q, hq, hql⟩
      refine ⟨q + 1, ?_, by simp; omega⟩
      simp only [identIndex.go, if_neg ha]
      rw [hq]
      congr 1
      omega

/-- `identIndex` finds a member, at an index below the length. -/
theorem identIndex_mem {l : List ℕ} {id : ℕ} (h : id ∈ l) :
    ∃ q, identIndex l id = some q ∧ q < l.length := by
  rcases identIndex_go_mem id l 0 h with ⟨q, hq, hql⟩
  exact ⟨q, by simp [identIndex, hq], hql⟩

/-- Folding `AddVertex` appends the identifiers and keeps the edges. -/
theorem addVertex_foldl (l : List ℕ) : ∀ g : Graph,
    l.foldl (fun g i => g.AddVertex (i + 1)) g = ⟨g.verts ++ l.map (· + 1), g.edges⟩ := by
  induction l with
  | nil =>
    intro g
    simp only [List.foldl_nil, List.map_nil, List.append_nil]
  | cons a l ih =>
    intro g
    rw [List.foldl_cons, ih]
    simp [Graph.AddVertex, List.append_assoc]

/-- The initial voronoi-vertex graph of `calc_voro`: identifiers `1..n`, no
edges. -/
theorem graph0_verts (n : ℕ) :
    ((List.range n).foldl (fun g i => g.AddVertex (i + 1)) (⟨[], []⟩ : Graph)) =
      ⟨(List.range n).map (· + 1), []⟩ := by
  rw [addVertex_foldl]
  rfl

/-- The whole edge loop preserves the vertex list, the symmetry of the graph
edges, and the index bounds of both bisector lists. -/
theorem voroEdgeLoop_inv (prims : VoroPrims) (lines : List Line)
    (groups : List (ℕ × ℕ)) (flag : Bool) (ee sc : Frac) (rv vv : List Vec2)
    (eps il : Frac) : ∀ (es : List VoroEdge) (st : VoroState),
    SymE st.graph.edges → LinB st.linear vv.length → ParB st.parabolic vv.length →
    (voroEdgeLoop prims lines groups flag ee sc rv vv eps il st es).graph.verts =
        st.graph.verts ∧
    SymE (voroEdgeLoop prims lines groups flag ee sc rv vv eps il st es).graph.edges ∧
    LinB (voroEdgeLoop prims lines groups flag ee sc rv vv eps il st es).linear vv.length ∧
    ParB (voroEdgeLoop prims lines groups flag ee sc rv vv eps il st es).parabolic vv.length := by
  intro es
  induction es with
  | nil => intro st h1 h2 h3; exact ⟨rfl, h1, h2, h3⟩
  | cons e es ih =>
    intro st h1 h2 h3
    rcases voroStep_inv prims lines groups flag ee sc rv vv eps il st e h1 h2 h3 with
      ⟨s1, s2, s3⟩
    have hv := voroStep_verts prims lines groups flag ee sc rv vv eps il st e
    rcases ih (voroStep prims lines groups flag ee sc rv vv eps il st e) s1 s2 s3 with
      ⟨r0, r1, r2, r3⟩
    have hl : voroEdgeLoop prims lines groups flag ee sc rv vv eps il st (e :: es) =
        voroEdgeLoop prims lines groups flag ee sc rv vv eps il
          (voroStep prims lines groups flag ee sc rv vv eps il st e) es := rfl
    rw [hl]
    exact ⟨r0.trans hv, r1, r2, r3⟩

/-- The isolated-vertex detection fold: walking the still-present suffix `S`
of the identifier list over a symmetric edge list in which every already-kept
position has an outgoing edge yields a graph whose every position keeps an
outgoing edge, a matching count, and a strictly ascending bounded removal
list. -/
theorem detect_fold_inv (S : List ℕ) : ∀ (pre : List ℕ) (E : List (ℕ × ℕ × Frac))
    (rem : List ℕ) (i : ℕ),
    (pre ++ S).Nodup → SymE E →
    (∀ q, q < pre.length → E.filter (fun x => x.1 = q) ≠ []) →
    List.Chain' (· < ·) (rem ++ [i]) →
    (S.foldl detectStep (⟨pre ++ S, E⟩, rem, i)).1.verts.length +
        (S.foldl detectStep (⟨pre ++ S, E⟩, rem, i)).2.1.length
        = pre.length + S.length + rem.length ∧
    (∀ q, q < (S.foldl detectStep (⟨pre ++ S, E⟩, rem, i)).1.verts.length →
        (S.foldl detectStep (⟨pre ++ S, E⟩, rem, i)).1.edges.filter
          (fun x => x.1 = q) ≠ []) ∧
    List.Chain' (· < ·)
      ((S.foldl detectStep (⟨pre ++ S, E⟩, rem, i)).2.1 ++ [i + S.length]) := by
  induction S with
  | nil =>
    intro pre E rem i hnd hsym hpos hch
    refine ⟨by simp, ?_, by simpa using hch⟩
    simpa using hpos
  | cons id S' ih =>
    intro pre E rem i hnd hsym hpos hch
    have hid : id ∉ pre := by
      intro hm
      exact (List.nodup_append.mp hnd).2.2 hm (List.mem_cons_self id S')
    have houtg : (Graph.outgoingIdent ⟨pre ++ id :: S', E⟩ id) =
        E.filter (fun e => e.1 = pre.length) := by
      unfold Graph.outgoingIdent
      rw [identIndex_append pre S' id hid]
    rw [List.foldl_cons]
    by_cases he : (E.filter (fun e => e.1 = pre.length)).isEmpty = true
    · -- the vertex is isolated and gets removed
      have hFnil : E.filter (fun e => e.1 = pre.length) = [] := by
        rwa [List.isEmpty_iff] at he
      have hedges : ∀ x ∈ E, x.1 ≠ pre.length ∧ x.2.1 ≠ pre.length := by
        intro x hx
        constructor
        · intro hx1
          have hm : x ∈ E.filter (fun e => e.1 = pre.length) :=
            List.mem_filter.mpr ⟨hx, by simp [hx1]⟩
          rw [hFnil] at hm
          cases hm
        · intro hx2
          have hm : (x.2.1, x.1, x.2.2) ∈ E.filter (fun e => e.1 = pre.length) :=
            List.mem_filter.mpr ⟨hsym x hx, by simp [hx2]⟩
          rw [hFnil] at hm
          cases hm
      have hX : Graph.RemoveVertexIdx ⟨pre ++ id :: S', E⟩ pre.length =
          ⟨pre ++ S', E.map (fun e =>
            (idxShift pre.length e.1, idxShift pre.length e.2.1, e.2.2))⟩ := by
        have h1 : (Graph.RemoveVertexIdx (⟨pre ++ id :: S', E⟩ : Graph) pre.length).verts =
            pre ++ S' := eraseIdx_append_length pre id S'
        have h2 := removeVertexIdx_edges ⟨pre ++ id :: S', E⟩ pre.length hedges
        calc Graph.RemoveVertexIdx ⟨pre ++ id :: S', E⟩ pre.length
            = ⟨(Graph.RemoveVertexIdx ⟨pre ++ id :: S', E⟩ pre.length).verts,
               (Graph.RemoveVertexIdx ⟨pre ++ id :: S', E⟩ pre.length).edges⟩ := rfl
          _ = _ := by rw [h1, h2]
      have hrm : (⟨pre ++ id :: S', E⟩ : Graph).RemoveVertexIdent id =
          ⟨pre ++ S', E.map (fun e =>
            (idxShift pre.length e.1, idxShift pre.length e.2.1, e.2.2))⟩ := by
        unfold Graph.RemoveVertexIdent
        dsimp only
        rw [identIndex_append pre S' id hid]
        exact hX
      have hcond : ((⟨pre ++ id :: S', E⟩ : Graph).outgoingIdent id).isEmpty = true := by
        rw [houtg, hFnil]
        rfl
      have hstep : detectStep (⟨pre ++ id :: S', E⟩, rem, i) id =
          (⟨pre ++ S', E.map (fun e =>
            (idxShift pre.length e.1, idxShift pre.length e.2.1, e.2.2))⟩,
           rem ++ [i], i + 1) := by
        unfold detectStep
        dsimp only
        rw [if_pos hcond, hrm]
      rw [hstep]
      have hnd' : (pre ++ S').Nodup := by
        rcases List.nodup_append.mp hnd with ⟨n1, n2, n3⟩
        exact List.nodup_append.mpr
          ⟨n1, (List.nodup_cons.mp n2).2,
           fun a ha hb => n3 ha (List.mem_cons_of_mem id hb)⟩
      have hsym' := symE_map_shift hsym pre.length
      have hpos' : ∀ q, q < pre.length →
          (E.map (fun e => (idxShift pre.length e.1, idxShift pre.length e.2.1, e.2.2))).filter
            (fun x => x.1 = q) ≠ [] := by
        intro q hq
        rcases List.exists_mem_of_ne_nil _ (hpos q hq) with ⟨x, hxm⟩
        rcases List.mem_filter.mp hxm with ⟨hxE, hx1⟩
        have hx1' : x.1 = q := by simpa using hx1
        apply List.ne_nil_of_mem (a := (idxShift pre.length x.1, idxShift pre.length x.2.1, x.2.2))
        refine List.mem_filter.mpr ⟨List.mem_map.mpr ⟨x, hxE, rfl⟩, ?_⟩
        have : idxShift pre.length x.1 = q := by
          unfold idxShift
          rw [hx1']
          rw [if_neg (by omega)]
        simpa using this
      have hch' : List.Chain' (· < ·) ((rem ++ [i]) ++ [i + 1]) :=
        chain'_snoc_snoc hch (by omega)
      obtain ⟨ha, hb, hc⟩ := ih pre
        (E.map (fun e => (idxShift pre.length e.1, idxShift pre.length e.2.1, e.2.2)))
        (rem ++ [i]) (i + 1) hnd' hsym' hpos' hch'
      refine ⟨?_, hb, ?_⟩
      · simp only [List.length_append, List.length_cons, List.length_nil] at ha ⊢
        omega
      · have hix : i + (S'.length + 1) = i + 1 + S'.length := by omega
        simp only [List.length_cons]
        rw [hix]
        exact hc
    · -- the vertex stays
      have hcond : ¬ (((⟨pre ++ id :: S', E⟩ : Graph).outgoingIdent id).isEmpty = true) := by
        rw [houtg]
        exact he
      have hstep : detectStep (⟨pre ++ id :: S', E⟩, rem, i) id =
          (⟨(pre ++ [id]) ++ S', E⟩, rem, i + 1) := by
        unfold detectStep
        dsimp only
        rw [if_neg hcond, List.append_assoc]
        rfl
      rw [hstep]
      have hnd' : ((pre ++ [id]) ++ S').Nodup := by
        rw [List.append_assoc]
        exact hnd
      have hpos' : ∀ q, q < (pre ++ [id]).length → E.filter (fun x => x.1 = q) ≠ [] := by
        intro q hq
        simp only [List.length_append, List.length_cons, List.length_nil] at hq
        by_cases hq' : q < pre.length
        · exact hpos q hq'
        · have hq'' : q = pre.length := by omega
          subst hq''
          intro hnil
          exact he (by rw [hnil]; rfl)
      have hch' : List.Chain' (· < ·) (rem ++ [i + 1]) :=
        chain'_snoc_mono hch (by omega)
      obtain ⟨ha, hb, hc⟩ := ih (pre ++ [id]) E rem (i + 1) hnd' hsym hpos' hch'
      refine ⟨?_, hb, ?_⟩
      · simp only [List.length_append, List.length_cons, List.length_nil] at ha ⊢
        omega
      · have hix : i + (S'.length + 1) = i + 1 + S'.length := by omega
        simp only [List.length_cons]
        rw [hix]
        exact hc

/-- The compaction fold: removing a strictly descending list of valid indices
keeps every bisector index a valid index into the compacted vertex array, and
shortens the array by exactly the number of removals. -/
theorem compact_fold_inv : ∀ (R : List ℕ) (vv : List Vec2)
    (lin : List (Line × Option ℕ × Option ℕ)) (par : List (List Vec2 × ℕ × ℕ)),
    List.Chain' (· > ·) (vv.length :: R) →
    LinB lin vv.length → ParB par vv.length →
    (R.foldl voroCompactStep (vv, lin, par)).1.length = vv.length - R.length ∧
    LinB (R.foldl voroCompactStep (vv, lin, par)).2.1
      (R.foldl voroCompactStep (vv, lin, par)).1.length ∧
    ParB (R.foldl voroCompactStep (vv, lin, par)).2.2
      (R.foldl voroCompactStep (vv, lin, par)).1.length := by
  intro R
  induction R with
  | nil =>
    intro vv lin par _ h2 h3
    exact ⟨by simp, h2, h3⟩
  | cons r R ih =>
    intro vv lin par hch h2 h3
    have hr : r < vv.length := (List.chain'_cons.mp hch).1
    have hch' : List.Chain' (· > ·) (r :: R) := (List.chain'_cons.mp hch).2
    have hlen : (vv.eraseIdx r).length = vv.length - 1 := by
      rw [List.length_eraseIdx, if_pos hr]
    have hlin' : LinB (lin.filterMap (fun lb =>
        if lb.2.1 = some r ∨ lb.2.2 = some r then none
        else some (lb.1, lb.2.1.map (fun i => if r ≤ i then i - 1 else i),
                    lb.2.2.map (fun i => if r ≤ i then i - 1 else i)))) (vv.length - 1) := by
      intro lb hlb
      rcases List.mem_filterMap.mp hlb with ⟨lb0, hmem, hf⟩
      rcases h2 lb0 hmem with ⟨hb1, hb2⟩
      by_cases hc : lb0.2.1 = some r ∨ lb0.2.2 = some r
      · rw [if_pos hc] at hf
        cases hf
      · rw [if_neg hc] at hf
        injection hf with hf
        subst hf
        push_neg at hc
        constructor
        · intro j hj
          rcases Option.map_eq_some'.mp hj with ⟨j0, hj0, hsh⟩
          have hlt := hb1 j0 hj0
          have hne : j0 ≠ r := fun h => hc.1 (by rw [← h]; exact hj0)
          by_cases hr0 : r ≤ j0
          · rw [if_pos hr0] at hsh
            omega
          · rw [if_neg hr0] at hsh
            omega
        · intro j hj
          rcases Option.map_eq_some'.mp hj with ⟨j0, hj0, hsh⟩
          have hlt := hb2 j0 hj0
          have hne : j0 ≠ r := fun h => hc.2 (by rw [← h]; exact hj0)
          by_cases hr0 : r ≤ j0
          · rw [if_pos hr0] at hsh
            omega
          · rw [if_neg hr0] at hsh
            omega
    have hpar' : ParB (par.filterMap (fun pb =>
        if pb.2.1 = r ∨ pb.2.2 = r then none
        else some (pb.1, if r ≤ pb.2.1 then pb.2.1 - 1 else pb.2.1,
                    if r ≤ pb.2.2 then pb.2.2 - 1 else pb.2.2))) (vv.length - 1) := by
      intro pb hpb
      rcases List.mem_filterMap.mp hpb with ⟨pb0, hmem, hf⟩
      rcases h3 pb0 hmem with ⟨hb1, hb2⟩
      by_cases hc : pb0.2.1 = r ∨ pb0.2.2 = r
      · rw [if_pos hc] at hf
        cases hf
      · rw [if_neg hc] at hf
        injection hf with hf
        subst hf
        push_neg at hc
        constructor
        · show (if r ≤ pb0.2.1 then pb0.2.1 - 1 else pb0.2.1) < vv.length - 1
          rcases hc with ⟨hc1, _⟩
          by_cases hr0 : r ≤ pb0.2.1 <;> simp only [hr0, if_true, if_false] <;> omega
        · show (if r ≤ pb0.2.2 then pb0.2.2 - 1 else pb0.2.2) < vv.length - 1
          rcases hc with ⟨_, hc2⟩
          by_cases hr0 : r ≤ pb0.2.2 <;> simp only [hr0, if_true, if_false] <;> omega
    have hch2 : List.Chain' (· > ·) ((vv.eraseIdx r).length :: R) := by
      rw [hlen]
      exact chain'_cons_ge hch' (by omega)
    have hlin2 : LinB (lin.filterMap (fun lb =>
        if lb.2.1 = some r ∨ lb.2.2 = some r then none
        else some (lb.1, lb.2.1.map (fun i => if r ≤ i then i - 1 else i),
                    lb.2.2.map (fun i => if r ≤ i then i - 1 else i))))
        (vv.eraseIdx r).length := by
      rw [hlen]
      exact hlin'
    have hpar2 : ParB (par.filterMap (fun pb =>
        if pb.2.1 = r ∨ pb.2.2 = r then none
        else some (pb.1, if r ≤ pb.2.1 then pb.2.1 - 1 else pb.2.1,
                    if r ≤ pb.2.2 then pb.2.2 - 1 else pb.2.2)))
        (vv.eraseIdx r).length := by
      rw [hlen]
      exact hpar'
    obtain ⟨ha, hb, hcc⟩ := ih (vv.eraseIdx r) _ _ hch2 hlin2 hpar2
    have hstep : voroCompactStep (vv, lin, par) r =
        (vv.eraseIdx r,
         lin.filterMap (fun lb =>
           if lb.2.1 = some r ∨ lb.2.2 = some r then none
           else some (lb.1, lb.2.1.map (fun i => if r ≤ i then i - 1 else i),
                       lb.2.2.map (fun i => if r ≤ i then i - 1 else i))),
         par.filterMap (fun pb =>
           if pb.2.1 = r ∨ pb.2.2 = r then none
           else some (pb.1, if r ≤ pb.2.1 then pb.2.1 - 1 else pb.2.1,
                       if r ≤ pb.2.2 then pb.2.2 - 1 else pb.2.2))) := rfl
    rw [List.foldl_cons, hstep]
    refine ⟨?_, hb, hcc⟩
    rw [ha]
    simp only [hlen, List.length_cons]
    omega

/-- **C8 (corrected: only for a non-empty line grouping).**  Whenever the
line grouping is non-empty, `calc_voro` removes the
isolated voronoi vertices and compacts the indices consistently: every vertex
index stored in a returned linear or parabolic bisector is a valid index into
the returned vertex array, the roadmap graph has exactly as many vertices as
that array, and every remaining graph vertex keeps an outgoing edge
(hull.h:1635-1727). -/
theorem calc_voro_compacts (prims : VoroPrims) (lines : List Line)
    (line_groups : List (ℕ × ℕ)) (flag : Bool) (ee : Frac) (dg : VoroDiagram)
    (hg : line_groups.length ≠ 0) :
    LinB (calc_voro prims lines line_groups flag ee dg).2.1
      (calc_voro prims lines line_groups flag ee dg).1.length ∧
    ParB (calc_voro prims lines line_groups flag ee dg).2.2.1
      (calc_voro prims lines line_groups flag ee dg).1.length ∧
    (calc_voro prims lines line_groups flag ee dg).2.2.2.verts.length =
      (calc_voro prims lines line_groups flag ee dg).1.length ∧
    ∀ id ∈ (calc_voro prims lines line_groups flag ee dg).2.2.2.verts,
      (calc_voro prims lines line_groups flag ee dg).2.2.2.outgoingIdent id ≠ [] := by
  unfold calc_voro calc_voro.detect
  dsimp only
  rw [if_pos hg, graph0_verts]
  dsimp only
  set sc := fceil ((1 : Frac) / (ee * ee)) with hsc
  set il : Frac := 10 * (lines.foldl (fun m l => fmax m (prims.normF (vsub l.2 l.1))) 1)
    with hil
  set vv := dg.verts.map (fun v => vdivs v sc) with hvvdef
  set V := (List.range dg.verts.length).map (· + 1) with hV
  set st := voroEdgeLoop prims lines line_groups flag ee sc dg.verts vv (ee * ee) il
    ⟨⟨V, []⟩, [], []⟩ dg.edges with hstdef
  obtain ⟨hverts, hsym, hlin, hpar⟩ :=
    voroEdgeLoop_inv prims lines line_groups flag ee sc dg.verts vv (ee * ee) il dg.edges
      ⟨⟨V, []⟩, [], []⟩
      (fun x hx => absurd hx (List.not_mem_nil x))
      (fun lb hlb => absurd hlb (List.not_mem_nil lb))
      (fun pb hpb => absurd hpb (List.not_mem_nil pb))
  rw [← hstdef] at hverts hsym hlin hpar
  dsimp only at hverts
  have hgr : st.graph = (⟨V, st.graph.edges⟩ : Graph) := by
    rw [← hverts]
  have hVnd : V.Nodup :=
    List.Nodup.map (fun a b h => by omega) (List.nodup_range dg.verts.length)
  obtain ⟨hcount, hposf, hchain⟩ :=
    detect_fold_inv V [] st.graph.edges [] 0
      (by simp only [List.nil_append]; exact hVnd) hsym
      (fun q hq => absurd hq (Nat.not_lt_zero q))
      (by simp only [List.nil_append]; exact List.chain'_singleton 0)
  simp only [List.nil_append, List.length_nil, Nat.zero_add, Nat.add_zero] at hcount hposf hchain
  rw [← hgr] at hcount hposf hchain
  rw [hverts]
  set r := V.foldl detectStep (st.graph, [], 0) with hrdef
  have hvvlen : vv.length = V.length := by
    rw [hvvdef, hV]
    simp
  have hchain2 : List.Chain' (· > ·) (vv.length :: r.2.1.reverse) := by
    rw [hvvlen]
    have hrev : (r.2.1 ++ [V.length]).reverse = V.length :: r.2.1.reverse := by
      simp
    have := (List.chain'_reverse (l := r.2.1 ++ [V.length])
      (R := (· > ·))).mpr hchain
    rw [hrev] at this
    exact this
  obtain ⟨hclen, hclin, hcpar⟩ :=
    compact_fold_inv r.2.1.reverse vv st.linear st.parabolic hchain2 hlin hpar
  refine ⟨hclin, hcpar, ?_, ?_⟩
  · rw [hclen]
    simp only [List.length_reverse]
    omega
  · intro id hid
    rcases identIndex_mem hid with ⟨q, hq, hql⟩
    have hfil := hposf q hql
    unfold Graph.outgoingIdent
    rw [hq]
    exact hfil

/-- Witness for C8: a single trivial group over an empty diagram. -/
theorem calc_voro_compacts_witness :
    ([((0 : ℕ), (0 : ℕ))] : List (ℕ × ℕ)).length ≠ 0 ∧
    (LinB (calc_voro trivPrims [] [(0, 0)] false (mkF 1 10) ⟨[], []⟩).2.1
      (calc_voro trivPrims [] [(0, 0)] false (mkF 1 10) ⟨[], []⟩).1.length ∧
     ParB (calc_voro trivPrims [] [(0, 0)] false (mkF 1 10) ⟨[], []⟩).2.2.1
      (calc_voro trivPrims [] [(0, 0)] false (mkF 1 10) ⟨[], []⟩).1.length ∧
     (calc_voro trivPrims [] [(0, 0)] false (mkF 1 10) ⟨[], []⟩).2.2.2.verts.length =
      (calc_voro trivPrims [] [(0, 0)] false (mkF 1 10) ⟨[], []⟩).1.length ∧
     ∀ id ∈ (calc_voro trivPrims [] [(0, 0)] false (mkF 1 10) ⟨[], []⟩).2.2.2.verts,
      (calc_voro trivPrims [] [(0, 0)] false (mkF 1 10) ⟨[], []⟩).2.2.2.outgoingIdent id ≠ []) :=
  ⟨by decide, calc_voro_compacts trivPrims [] [(0, 0)] false (mkF 1 10) ⟨[], []⟩ (by decide)⟩

/-- Counterexample for C8 as frozen (unconditional removal): with an EMPTY
line grouping, the removal block of `calc_voro` never runs (hull.h:1636 gates
it by `line_groups.size()`): for a diagram with one vertex and no edges, the
returned roadmap graph still holds the isolated voronoi vertex — identifier 1
with no outgoing edges — and the vertex array keeps its entry. -/
theorem calc_voro_keeps_isolated_when_ungrouped :
    (calc_voro trivPrims [] [] false (mkF 1 10) ⟨[(0, 0)], []⟩).2.2.2.verts = [1] ∧
    (calc_voro trivPrims [] [] false (mkF 1 10) ⟨[(0, 0)], []⟩).2.2.2.outgoingIdent 1
      = [] ∧
    (calc_voro trivPrims [] [] false (mkF 1 10) ⟨[(0, 0)], []⟩).1.length = 1 := by
  decide

/-- `mkF` with a positive denominator: positive reduced denominator. -/
theorem mkF_den_pos_of_pos (n d : ℤ) (hd : 0 < d) : 0 < (mkF n d).den := by
  unfold mkF
  simp only [if_neg (not_lt.mpr (le_of_lt hd))]
  have hg0 : Int.gcd n d ≠ 0 := fun h => (ne_of_gt hd) (Int.gcd_eq_zero_iff.mp h).2
  rw [if_neg (by exact_mod_cast hg0)]
  have hdvd : ((Int.gcd n d : ℤ)) ∣ d := Int.gcd_dvd_right
  have hgpos : (0 : ℤ) < (Int.gcd n d : ℤ) := by
    exact_mod_cast Nat.pos_of_ne_zero hg0
  have heq := Int.ediv_mul_cancel hdvd
  show 0 < d / (Int.gcd n d : ℤ)
  nlinarith [heq]

/-- `mkF` with a nonzero denominator: positive reduced denominator. -/
theorem mkF_den_pos (n d : ℤ) (hd : d ≠ 0) : 0 < (mkF n d).den := by
  rcases hd.lt_or_lt with hneg | hpos
  · have hmk : mkF n d = mkF (-n) (-d) := by
      unfold mkF
      simp only [if_pos hneg, if_neg (not_lt.mpr (le_of_lt (neg_pos.mpr hneg))),
        neg_neg]
    rw [hmk]
    exact mkF_den_pos_of_pos (-n) (-d) (neg_pos.mpr hneg)
  · exact mkF_den_pos_of_pos n d hpos

/-- The real value of `mkF` over a positive denominator. -/
theorem toR_mkF_of_pos (n d : ℤ) (hd : 0 < d) : (mkF n d).toR = (n : ℝ) / d := by
  unfold mkF
  simp only [if_neg (not_lt.mpr (le_of_lt hd))]
  have hg0 : Int.gcd n d ≠ 0 := fun h => (ne_of_gt hd) (Int.gcd_eq_zero_iff.mp h).2
  rw [if_neg (by exact_mod_cast hg0)]
  unfold Frac.toR
  dsimp only
  rw [Int.cast_div_charZero (Int.gcd_dvd_left),
    Int.cast_div_charZero (Int.gcd_dvd_right)]
  have hgr : ((Int.gcd n d : ℤ) : ℝ) ≠ 0 := by
    rw [Int.cast_ne_zero]
    exact_mod_cast hg0
  have hdr : (d : ℝ) ≠ 0 := Int.cast_ne_zero.mpr (ne_of_gt hd)
  field_simp

/-- The real value of `mkF` over a nonzero denominator. -/
theorem toR_mkF (n d : ℤ) (hd : d ≠ 0) : (mkF n d).toR = (n : ℝ) / d := by
  rcases hd.lt_or_lt with hneg | hpos
  · have hmk : mkF n d = mkF (-n) (-d) := by
      unfold mkF
      simp only [if_pos hneg, if_neg (not_lt.mpr (le_of_lt (neg_pos.mpr hneg))),
        neg_neg]
    rw [hmk, toR_mkF_of_pos (-n) (-d) (neg_pos.mpr hneg)]
    push_cast
    rw [neg_div_neg_eq]
  · exact toR_mkF_of_pos n d hpos

theorem fneg_den (a : Frac) : (-a).den = a.den := rfl

theorem add_den_pos {a b : Frac} (ha : 0 < a.den) (hb : 0 < b.den) :
    0 < (a + b).den :=
  mkF_den_pos _ _ (mul_ne_zero (ne_of_gt ha) (ne_of_gt hb))

theorem sub_den_pos {a b : Frac} (ha : 0 < a.den) (hb : 0 < b.den) :
    0 < (a - b).den :=
  add_den_pos ha hb

theorem mul_den_pos {a b : Frac} (ha : 0 < a.den) (hb : 0 < b.den) :
    0 < (a * b).den :=
  mkF_den_pos _ _ (mul_ne_zero (ne_of_gt ha) (ne_of_gt hb))

theorem toR_neg (a : Frac) : (-a).toR = -a.toR := by
  show (fneg a).toR = -a.toR
  unfold fneg Frac.toR
  push_cast
  rw [neg_div]

theorem toR_add {a b : Frac} (ha : 0 < a.den) (hb : 0 < b.den) :
    (a + b).toR = a.toR + b.toR := by
  show (fadd a b).toR = a.toR + b.toR
  unfold fadd
  rw [toR_mkF _ _ (mul_ne_zero (ne_of_gt ha) (ne_of_gt hb))]
  unfold Frac.toR
  have har : (a.den : ℝ) ≠ 0 := Int.cast_ne_zero.mpr (ne_of_gt ha)
  have hbr : (b.den : ℝ) ≠ 0 := Int.cast_ne_zero.mpr (ne_of_gt hb)
  push_cast
  field_simp

theorem toR_sub {a b : Frac} (ha : 0 < a.den) (hb : 0 < b.den) :
    (a - b).toR = a.toR - b.toR := by
  show (fadd a (fneg b)).toR = a.toR - b.toR
  have h1 : (fadd a (fneg b)).toR = a.toR + (fneg b).toR := toR_add ha hb
  rw [h1]
  have h2 : (fneg b).toR = -b.toR := toR_neg b
  rw [h2]
  ring

theorem toR_mul {a b : Frac} (ha : 0 < a.den) (hb : 0 < b.den) :
    (a * b).toR = a.toR * b.toR := by
  show (fmul a b).toR = a.toR * b.toR
  unfold fmul
  rw [toR_mkF _ _ (mul_ne_zero (ne_of_gt ha) (ne_of_gt hb))]
  unfold Frac.toR
  have har : (a.den : ℝ) ≠ 0 := Int.cast_ne_zero.mpr (ne_of_gt ha)
  have hbr : (b.den : ℝ) ≠ 0 := Int.cast_ne_zero.mpr (ne_of_gt hb)
  push_cast
  field_simp

theorem toR_zero : (0 : Frac).toR = 0 := by
  show Frac.toR ⟨0, 1⟩ = 0
  unfold Frac.toR
  simp

theorem fltB_toR {a b : Frac} (ha : 0 < a.den) (hb : 0 < b.den) :
    fltB a b = true ↔ a.toR < b.toR := by
  unfold fltB Frac.toR
  rw [decide_eq_true_eq,
    div_lt_div_iff₀ (by exact_mod_cast ha) (by exact_mod_cast hb)]
  constructor
  · intro h
    exact_mod_cast h
  · intro h
    exact_mod_cast h

theorem fleB_toR {a b : Frac} (ha : 0 < a.den) (hb : 0 < b.den) :
    fleB a b = true ↔ a.toR ≤ b.toR := by
  unfold fleB Frac.toR
  rw [decide_eq_true_eq,
    div_le_div_iff₀ (by exact_mod_cast ha) (by exact_mod_cast hb)]
  constructor
  · intro h
    exact_mod_cast h
  · intro h
    exact_mod_cast h

/-- Evaluating `mod_pos` on a value with a known quotient. -/
theorem mod_pos_eq (x y : ℝ) (k : ℤ) (hy : 0 < y) (h1 : y * k ≤ x)
    (h2 : x < y * (k + 1)) : mod_pos x y = x - y * k := by
  unfold mod_pos
  have hf : ⌊x / y⌋ = k := by
    rw [Int.floor_eq_iff]
    constructor
    · rw [le_div_iff₀ hy]
      linarith [mul_comm (k : ℝ) y]
    · rw [div_lt_iff₀ hy]
      linarith
  rw [hf]

/-- `mod_pos` is periodic in integer multiples of the modulus. -/
theorem mod_pos_add_int_mul (x y : ℝ) (k : ℤ) (hy : y ≠ 0) :
    mod_pos (x + y * k) y = mod_pos x y := by
  unfold mod_pos
  have h1 : (x + y * k) / y = x / y + k := by
    field_simp
    ring
  rw [h1, Int.floor_add_int]
  push_cast
  ring

/-- The corner quantity `mod_pos (π - (arg w - arg z)) (2π)` equals
`π - arg (w / z)` whenever the relative argument is not `π` itself. -/
theorem corner_angle_arg {z w : ℂ} (hz : z ≠ 0) (hw : w ≠ 0)
    (hne : (w / z).arg ≠ Real.pi) :
    mod_pos (Real.pi - (w.arg - z.arg)) (2 * Real.pi) = Real.pi - (w / z).arg := by
  have hpi := Real.pi_pos
  have hang : (((w / z).arg : ℝ) : Real.Angle) = ((w.arg - z.arg : ℝ) : Real.Angle) := by
    rw [Complex.arg_div_coe_angle hw hz, Real.Angle.coe_sub]
  rcases Real.Angle.angle_eq_iff_two_pi_dvd_sub.mp hang with ⟨k, hk⟩
  have hγ1 : -Real.pi < (w / z).arg := Complex.neg_pi_lt_arg _
  have hγ2 : (w / z).arg ≤ Real.pi := Complex.arg_le_pi _
  have hγlt : (w / z).arg < Real.pi := lt_of_le_of_ne hγ2 hne
  have hsplit : Real.pi - (w.arg - z.arg) =
      (Real.pi - (w / z).arg) + (2 * Real.pi) * k := by
    linarith [hk]
  rw [hsplit, mod_pos_add_int_mul _ _ _ (by linarith),
    mod_pos_eq (Real.pi - (w / z).arg) (2 * Real.pi) 0 (by linarith) (by push_cast; linarith)
      (by push_cast; linarith)]
  push_cast
  ring

/-- A positively oriented corner (`cross > 0`) has relative argument in
`(0, π)`. -/
theorem arg_div_pos_of_cross_pos {z w : ℂ}
    (hc : 0 < z.re * w.im - z.im * w.re) :
    0 < (w / z).arg ∧ (w / z).arg < Real.pi := by
  have hz : z ≠ 0 := by
    intro h
    rw [h] at hc
    simp at hc
  have hw : w ≠ 0 := by
    intro h
    rw [h] at hc
    simp at hc
  have hwz : w / z ≠ 0 := div_ne_zero hw hz
  have him : 0 < (w / z).im := by
    rw [Complex.div_im]
    have hnsq : 0 < Complex.normSq z := Complex.normSq_pos.mpr hz
    have heq : w.im * z.re / Complex.normSq z - w.re * z.im / Complex.normSq z
        = (z.re * w.im - z.im * w.re) / Complex.normSq z := by
      ring
    rw [heq]
    exact div_pos hc hnsq
  have hsin : 0 < Real.sin (w / z).arg := by
    rw [Complex.sin_arg]
    exact div_pos him (AbsoluteValue.pos Complex.abs hwz)
  have hγ1 : -Real.pi < (w / z).arg := Complex.neg_pi_lt_arg _
  have hγ2 : (w / z).arg ≤ Real.pi := Complex.arg_le_pi _
  constructor
  · by_contra h
    push_neg at h
    have h0 : 0 ≤ Real.sin (-(w / z).arg) :=
      Real.sin_nonneg_of_nonneg_of_le_pi (by linarith) (by linarith [Real.pi_pos])
    rw [Real.sin_neg] at h0
    linarith
  · rcases lt_or_eq_of_le hγ2 with h | h
    · exact h
    · rw [h, Real.sin_pi] at hsin
      exact absurd hsin (lt_irrefl 0)

/-- A negatively oriented corner (`cross < 0`) has relative argument in
`(-π, 0)`, with `-arg ≥` any `q > 0` whose square is dominated by the squared
sine (`q² · |z|² · |w|² ≤ cross²`). -/
theorem arg_div_neg_of_cross_neg {z w : ℂ}
    (hc : z.re * w.im - z.im * w.re < 0) :
    -Real.pi < (w / z).arg ∧ (w / z).arg < 0 := by
  have hz : z ≠ 0 := by
    intro h
    rw [h] at hc
    simp at hc
  have hw : w ≠ 0 := by
    intro h
    rw [h] at hc
    simp at hc
  have hwz : w / z ≠ 0 := div_ne_zero hw hz
  have him : (w / z).im < 0 := by
    rw [Complex.div_im]
    have hnsq : 0 < Complex.normSq z := Complex.normSq_pos.mpr hz
    have heq : w.im * z.re / Complex.normSq z - w.re * z.im / Complex.normSq z
        = (z.re * w.im - z.im * w.re) / Complex.normSq z := by
      ring
    rw [heq]
    exact div_neg_of_neg_of_pos hc hnsq
  have hsin : Real.sin (w / z).arg < 0 := by
    rw [Complex.sin_arg]
    exact div_neg_of_neg_of_pos him (AbsoluteValue.pos Complex.abs hwz)
  have hγ1 : -Real.pi < (w / z).arg := Complex.neg_pi_lt_arg _
  refine ⟨hγ1, ?_⟩
  by_contra h
  push_neg at h
  have h0 : 0 ≤ Real.sin (w / z).arg :=
    Real.sin_nonneg_of_nonneg_of_le_pi h (Complex.arg_le_pi _)
  linarith

/-- The no-fire core: at a positively oriented corner the reflex test cannot
pass (over a nonnegative epsilon). -/
theorem not_reflex_core {z w : ℂ} {epsR : ℝ} (heps : 0 ≤ epsR)
    (hc : 0 < z.re * w.im - z.im * w.re) :
    ¬ (mod_pos (Real.pi - (w.arg - z.arg)) (2 * Real.pi) > Real.pi + epsR) := by
  have hz : z ≠ 0 := by
    intro h
    rw [h] at hc
    simp at hc
  have hw : w ≠ 0 := by
    intro h
    rw [h] at hc
    simp at hc
  rcases arg_div_pos_of_cross_pos hc with ⟨hp1, hp2⟩
  rw [corner_angle_arg hz hw (ne_of_lt hp2)]
  push_neg
  linarith

/-- The overshoot core: at a negatively oriented corner the corner quantity
exceeds `π`. -/
theorem gt_pi_core {z w : ℂ} (hc : z.re * w.im - z.im * w.re < 0) :
    Real.pi < mod_pos (Real.pi - (w.arg - z.arg)) (2 * Real.pi) := by
  have hz : z ≠ 0 := by
    intro h
    rw [h] at hc
    simp at hc
  have hw : w ≠ 0 := by
    intro h
    rw [h] at hc
    simp at hc
  rcases arg_div_neg_of_cross_neg hc with ⟨hp1, hp2⟩
  rw [corner_angle_arg hz hw (by intro h; rw [h] at hp2; linarith [Real.pi_pos])]
  linarith

/-- The fire core: at a negatively oriented corner whose squared sine is at
least `q²` (`q > ε`), the reflex test passes. -/
theorem reflex_fire_core {z w : ℂ} {epsR q : ℝ} (hq : epsR < q) (hq0 : 0 < q)
    (hc : z.re * w.im - z.im * w.re < 0)
    (hb : q * q * ((z.re * z.re + z.im * z.im) * (w.re * w.re + w.im * w.im)) ≤
          (z.re * w.im - z.im * w.re) * (z.re * w.im - z.im * w.re)) :
    Real.pi + epsR < mod_pos (Real.pi - (w.arg - z.arg)) (2 * Real.pi) := by
  have hz : z ≠ 0 := by
    intro h
    rw [h] at hc
    simp at hc
  have hw : w ≠ 0 := by
    intro h
    rw [h] at hc
    simp at hc
  obtain ⟨hγ1, hγ2⟩ := arg_div_neg_of_cross_neg hc
  have hA : 0 < Complex.abs z := AbsoluteValue.pos Complex.abs hz
  have hB : 0 < Complex.abs w := AbsoluteValue.pos Complex.abs hw
  have hA0 : Complex.abs z ≠ 0 := ne_of_gt hA
  have hB0 : Complex.abs w ≠ 0 := ne_of_gt hB
  have hA2 : Complex.abs z * Complex.abs z = z.re * z.re + z.im * z.im := by
    rw [Complex.mul_self_abs, Complex.normSq_apply]
  have hB2 : Complex.abs w * Complex.abs w = w.re * w.re + w.im * w.im := by
    rw [Complex.mul_self_abs, Complex.normSq_apply]
  have hsin : Real.sin (w / z).arg * (Complex.abs z * Complex.abs w) =
      z.re * w.im - z.im * w.re := by
    rw [Complex.sin_arg, Complex.div_im, map_div₀]
    have hnsq : Complex.normSq z = Complex.abs z * Complex.abs z :=
      (Complex.mul_self_abs z).symm
    rw [hnsq]
    field_simp
    ring
  have hM2 : (q * (Complex.abs z * Complex.abs w)) * (q * (Complex.abs z * Complex.abs w)) ≤
      (z.re * w.im - z.im * w.re) * (z.re * w.im - z.im * w.re) := by
    have hrg : (q * (Complex.abs z * Complex.abs w)) * (q * (Complex.abs z * Complex.abs w)) =
        q * q * ((Complex.abs z * Complex.abs z) * (Complex.abs w * Complex.abs w)) := by
      ring
    rw [hrg, hA2, hB2]
    exact hb
  have hqMpos : 0 < q * (Complex.abs z * Complex.abs w) := mul_pos hq0 (mul_pos hA hB)
  have hcpos : 0 < -(z.re * w.im - z.im * w.re) := by linarith
  have hqM : q * (Complex.abs z * Complex.abs w) ≤ -(z.re * w.im - z.im * w.re) := by
    nlinarith [hM2, hqMpos, hcpos]
  have hsinq : q ≤ Real.sin (-(w / z).arg) := by
    rw [Real.sin_neg]
    have hM : 0 < Complex.abs z * Complex.abs w := mul_pos hA hB
    nlinarith [hsin, hqM, hM]
  have hlt := Real.sin_lt (by linarith : 0 < -(w / z).arg)
  have hγq : (w / z).arg < -q := by linarith
  rw [corner_angle_arg hz hw (by intro h; rw [h] at hγ2; linarith [Real.pi_pos])]
  linarith

theorem PD_zero_num : PD ((0 : Frac), (0 : Frac)) := by
  constructor <;> decide

/-- Circular access keeps the positive-denominator invariant. -/
theorem PD_cget {poly : List Vec2} (h : ∀ v ∈ poly, PD v) (i : ℕ) :
    PD (cget poly i) := by
  unfold cget
  by_cases hi : i % poly.length < poly.length
  · rw [List.getD_eq_getElem _ _ hi]
    exact h _ (List.getElem_mem _)
  · rw [List.getD_eq_default _ _ (le_of_not_lt hi)]
    exact PD_zero_num

theorem PD_vsub {a b : Vec2} (ha : PD a) (hb : PD b) : PD (vsub a b) :=
  ⟨sub_den_pos ha.1 hb.1, sub_den_pos ha.2 hb.2⟩

theorem crossZ_den_pos {a b : Vec2} (ha : PD a) (hb : PD b) :
    0 < (crossZ a b).den :=
  sub_den_pos (mul_den_pos ha.1 hb.2) (mul_den_pos ha.2 hb.1)

theorem toR_crossZ {a b : Vec2} (ha : PD a) (hb : PD b) :
    (crossZ a b).toR = a.1.toR * b.2.toR - a.2.toR * b.1.toR := by
  unfold crossZ
  rw [toR_sub (mul_den_pos ha.1 hb.2) (mul_den_pos ha.2 hb.1),
    toR_mul ha.1 hb.2, toR_mul ha.2 hb.1]

theorem normSq_den_pos {a : Vec2} (ha : PD a) : 0 < (normSq a).den :=
  add_den_pos (mul_den_pos ha.1 ha.1) (mul_den_pos ha.2 ha.2)

theorem toR_normSq {a : Vec2} (ha : PD a) :
    (normSq a).toR = a.1.toR * a.1.toR + a.2.toR * a.2.toR := by
  unfold normSq
  rw [toR_add (mul_den_pos ha.1 ha.1) (mul_den_pos ha.2 ha.2),
    toR_mul ha.1 ha.1, toR_mul ha.2 ha.2]

/-- A corner with a positive exact cross product never tests concave. -/
theorem not_reflex_of_crossZ_pos (v1 v2 v3 : Vec2) (eps : Frac)
    (h1 : PD (vsub v2 v1)) (h2 : PD (vsub v3 v2)) (hde : 0 < eps.den)
    (heps : fleB 0 eps = true)
    (hc : fltB 0 (crossZ (vsub v2 v1) (vsub v3 v2)) = true) :
    ¬ IsReflex v1 v2 v3 (Frac.toR eps) := by
  have hdc : 0 < (crossZ (vsub v2 v1) (vsub v3 v2)).den := crossZ_den_pos h1 h2
  have hcr : 0 < (crossZ (vsub v2 v1) (vsub v3 v2)).toR := by
    have hx := (fltB_toR (by decide) hdc).mp hc
    rwa [toR_zero] at hx
  have hepsr : 0 ≤ Frac.toR eps := by
    have hx := (fleB_toR (by decide) hde).mp heps
    rwa [toR_zero] at hx
  rw [toR_crossZ h1 h2] at hcr
  unfold IsReflex corner_angle line_angle4 line_angle2 atan2R
  exact not_reflex_core hepsr hcr

/-- A corner with a negative exact cross product has corner quantity above
`π`: a reflex corner of the polygon. -/
theorem gt_pi_of_crossZ_neg (v1 v2 v3 : Vec2)
    (h1 : PD (vsub v2 v1)) (h2 : PD (vsub v3 v2))
    (hc : fltB (crossZ (vsub v2 v1) (vsub v3 v2)) 0 = true) :
    Real.pi < corner_angle v1 v2 v3 := by
  have hdc : 0 < (crossZ (vsub v2 v1) (vsub v3 v2)).den := crossZ_den_pos h1 h2
  have hcr : (crossZ (vsub v2 v1) (vsub v3 v2)).toR < 0 := by
    have hx := (fltB_toR hdc (by decide)).mp hc
    rwa [toR_zero] at hx
  rw [toR_crossZ h1 h2] at hcr
  unfold corner_angle line_angle4 line_angle2 atan2R
  exact gt_pi_core hcr

/-- A corner with a negative exact cross product whose squared sine exceeds
`q² > ε²` tests concave. -/
theorem reflex_of_crossZ_neg (v1 v2 v3 : Vec2) (eps q : Frac)
    (h1 : PD (vsub v2 v1)) (h2 : PD (vsub v3 v2)) (hde : 0 < eps.den)
    (hdq : 0 < q.den)
    (hq : fltB eps q = true) (hq0 : fltB 0 q = true)
    (hc : fltB (crossZ (vsub v2 v1) (vsub v3 v2)) 0 = true)
    (hb : fleB (q * q * (normSq (vsub v2 v1) * normSq (vsub v3 v2)))
        (crossZ (vsub v2 v1) (vsub v3 v2) * crossZ (vsub v2 v1) (vsub v3 v2)) = true) :
    IsReflex v1 v2 v3 (Frac.toR eps) := by
  have hdc : 0 < (crossZ (vsub v2 v1) (vsub v3 v2)).den := crossZ_den_pos h1 h2
  have hd1 : 0 < (normSq (vsub v2 v1)).den := normSq_den_pos h1
  have hd2 : 0 < (normSq (vsub v3 v2)).den := normSq_den_pos h2
  have hcr : (crossZ (vsub v2 v1) (vsub v3 v2)).toR < 0 := by
    have hx := (fltB_toR hdc (by decide)).mp hc
    rwa [toR_zero] at hx
  have hqr : Frac.toR eps < q.toR := (fltB_toR hde hdq).mp hq
  have hq0r : 0 < q.toR := by
    have hx := (fltB_toR (by decide) hdq).mp hq0
    rwa [toR_zero] at hx
  have hbr := (fleB_toR (mul_den_pos (mul_den_pos hdq hdq) (mul_den_pos hd1 hd2))
    (mul_den_pos hdc hdc)).mp hb
  rw [toR_mul (mul_den_pos hdq hdq) (mul_den_pos hd1 hd2), toR_mul hdq hdq,
    toR_mul hd1 hd2, toR_mul hdc hdc, toR_normSq h1, toR_normSq h2] at hbr
  rw [toR_crossZ h1 h2] at hcr hbr
  unfold IsReflex corner_angle line_angle4 line_angle2 atan2R
  exact reflex_fire_core hqr hq0r hcr hbr

/-- The concave scan yields nothing when no corner tests concave. -/
theorem find_concave_go_none (poly : List Vec2) (epsR : ℝ)
    (h : ∀ i, i < poly.length →
      ¬ IsReflex (cget poly i) (cget poly (i + 1)) (cget poly (i + 2)) epsR) :
    ∀ j i, poly.length - i ≤ j → find_concave.go poly epsR i = none := by
  intro j
  induction j with
  | zero =>
    intro i hi
    unfold find_concave.go
    rw [if_neg (by omega)]
  | succ j ih =>
    intro i hi
    unfold find_concave.go
    by_cases hlt : i < poly.length
    · rw [if_pos hlt, if_neg (h i hlt), ih (i + 1) (by omega)]
    · rw [if_neg hlt]

/-- `find_concave` yields nothing when no corner tests concave. -/
theorem find_concave_none (poly : List Vec2) (epsR : ℝ)
    (h : ∀ i, i < poly.length →
      ¬ IsReflex (cget poly i) (cget poly (i + 1)) (cget poly (i + 2)) epsR) :
    find_concave poly epsR = none := by
  unfold find_concave
  exact find_concave_go_none poly epsR h poly.length 0 (by omega)

/-- The concave scan finds the first concave corner. -/
theorem find_concave_go_some (poly : List Vec2) (epsR : ℝ) (c : ℕ)
    (hc : c < poly.length)
    (hr : IsReflex (cget poly c) (cget poly (c + 1)) (cget poly (c + 2)) epsR)
    (hbefore : ∀ i, i < c →
      ¬ IsReflex (cget poly i) (cget poly (i + 1)) (cget poly (i + 2)) epsR) :
    ∀ j i, i ≤ c → c - i ≤ j → find_concave.go poly epsR i = some c := by
  intro j
  induction j with
  | zero =>
    intro i hi hj
    have hieq : i = c := by omega
    subst hieq
    unfold find_concave.go
    rw [if_pos hc, if_pos hr]
  | succ j ih =>
    intro i hi hj
    by_cases hic : i = c
    · subst hic
      unfold find_concave.go
      rw [if_pos hc, if_pos hr]
    · have hilt : i < c := by omega
      unfold find_concave.go
      rw [if_pos (by omega), if_neg (hbefore i hilt), ih (i + 1) (by omega) (by omega)]

/-- `find_concave` finds the first concave corner. -/
theorem find_concave_some (poly : List Vec2) (epsR : ℝ) (c : ℕ)
    (hc : c < poly.length)
    (hr : IsReflex (cget poly c) (cget poly (c + 1)) (cget poly (c + 2)) epsR)
    (hbefore : ∀ i, i < c →
      ¬ IsReflex (cget poly i) (cget poly (i + 1)) (cget poly (i + 2)) epsR) :
    find_concave poly epsR = some c := by
  unfold find_concave
  exact find_concave_go_some poly epsR c hc hr hbefore c 0 (by omega) (by omega)

/-- **C4 (corrected).**  Convex-splitting an already-convex polygon (every
corner positively oriented, exact cross-product test) yields the EMPTY split
list — not the polygon itself as the spec claims (hull.h:2009-2021 only fill
`split` below a found concave corner). -/
theorem convex_split_convex_empty (eps : Frac) (fuel : ℕ) (poly : List Vec2)
    (hde : 0 < eps.den) (heps : fleB 0 eps = true)
    (hpd : ∀ v ∈ poly, PD v)
    (hconv : ∀ i, i < poly.length →
      fltB 0 (crossZ (vsub (cget poly (i + 1)) (cget poly i))
                     (vsub (cget poly (i + 2)) (cget poly (i + 1)))) = true) :
    convex_split eps (fuel + 1) poly = some [] := by
  have hnone : find_concave poly (Frac.toR eps) = none := by
    apply find_concave_none
    intro i hi
    exact not_reflex_of_crossZ_pos _ _ _ eps
      (PD_vsub (PD_cget hpd (i + 1)) (PD_cget hpd i))
      (PD_vsub (PD_cget hpd (i + 2)) (PD_cget hpd (i + 1))) hde heps (hconv i hi)
  unfold convex_split
  by_cases hlen : poly.length ≤ 3
  · rw [if_pos hlen]
  · rw [if_neg hlen, hnone]

/-- Witness for C4: a concrete convex quadrilateral. -/
theorem convex_split_convex_empty_witness :
    (0 < (mkF 1 100000).den ∧ fleB 0 (mkF 1 100000) = true ∧
     (∀ v ∈ ([(0, 0), (2, 0), (2, 2), (0, 2)] : List Vec2), PD v) ∧
     (∀ i, i < ([(0, 0), (2, 0), (2, 2), (0, 2)] : List Vec2).length →
       fltB 0 (crossZ
         (vsub (cget [(0, 0), (2, 0), (2, 2), (0, 2)] (i + 1))
               (cget [(0, 0), (2, 0), (2, 2), (0, 2)] i))
         (vsub (cget [(0, 0), (2, 0), (2, 2), (0, 2)] (i + 2))
               (cget [(0, 0), (2, 0), (2, 2), (0, 2)] (i + 1)))) = true)) ∧
    convex_split (mkF 1 100000) 5 [(0, 0), (2, 0), (2, 2), (0, 2)] = some [] :=
  ⟨⟨by decide, by decide, by decide, by decide⟩,
   convex_split_convex_empty (mkF 1 100000) 4 _ (by decide) (by decide) (by decide)
     (by decide)⟩

/-- Counterexample for C4: the unit square is already convex, yet
`convex_split` returns the empty list, not the square. -/
theorem convex_split_square_not_unchanged :
    convex_split (mkF 1 100000) 2 [(0, 0), (1, 0), (1, 1), (0, 1)] = some [] ∧
    (some [] : Option (List (List Vec2))) ≠
      some [[((0 : Frac), (0 : Frac)), (1, 0), (1, 1), (0, 1)]] := by
  constructor
  · have hnone :
        find_concave [(0, 0), (1, 0), (1, 1), (0, 1)] (Frac.toR (mkF 1 100000)) = none := by
      apply find_concave_none
      intro i hi
      have hi4 : i = 0 ∨ i = 1 ∨ i = 2 ∨ i = 3 := by
        simp only [List.length_cons, List.length_nil] at hi
        omega
      rcases hi4 with rfl | rfl | rfl | rfl <;>
        exact not_reflex_of_crossZ_pos _ _ _ (mkF 1 100000) (by decide) (by decide)
          (by decide) (by decide) (by decide)
    unfold convex_split
    rw [if_neg (by decide), hnone]
  · decide

theorem toR_int_den_one (n : ℤ) : Frac.toR ⟨n, 1⟩ = (n : ℝ) := by
  unfold Frac.toR
  norm_num

/-- A staircase step that fails the horizontal/vertical test moves on. -/
theorem staircase_step_not_hv (min_dist : Frac) (epsR : ℝ) (fuel curidx : ℕ)
    (contour : List Vec2) (hidx : curidx < contour.length + 1)
    (hdist : fltB (min_dist * min_dist)
      (normSq (vsub (cget contour (curidx + 3)) (cget contour curidx))) = false)
    (hhv : ¬ IsHV (mod_pos (line_angle2 (cget contour (curidx + 1))
      (cget contour (curidx + 2))) (2 * Real.pi)) epsR) :
    staircasePass min_dist epsR (fuel + 1) curidx contour =
      staircasePass min_dist epsR fuel (curidx + 1) contour := by
  unfold staircasePass
  rw [if_neg (not_not_intro hidx)]
  dsimp only
  rw [hdist]
  rw [if_neg Bool.false_ne_true, if_neg hhv, ← staircasePass.eq_def]

/-- A staircase step whose neighbour angles differ moves on. -/
theorem staircase_step_angle_mismatch (min_dist : Frac) (epsR : ℝ) (fuel curidx : ℕ)
    (contour : List Vec2) (hidx : curidx < contour.length + 1)
    (hdist : fltB (min_dist * min_dist)
      (normSq (vsub (cget contour (curidx + 3)) (cget contour curidx))) = false)
    (hhv : IsHV (mod_pos (line_angle2 (cget contour (curidx + 1))
      (cget contour (curidx + 2))) (2 * Real.pi)) epsR)
    (hang : ¬ (|mod_pos (line_angle2 (cget contour curidx) (cget contour (curidx + 1)))
        (2 * Real.pi) -
      mod_pos (line_angle2 (cget contour (curidx + 2)) (cget contour (curidx + 3)))
        (2 * Real.pi)| ≤ epsR)) :
    staircasePass min_dist epsR (fuel + 1) curidx contour =
      staircasePass min_dist epsR fuel (curidx + 1) contour := by
  unfold staircasePass
  rw [if_neg (not_not_intro hidx)]
  dsimp only
  rw [hdist]
  rw [if_neg Bool.false_ne_true, if_pos hhv, if_neg hang, ← staircasePass.eq_def]

/-- The staircase pass stops past the end. -/
theorem staircase_step_done (min_dist : Frac) (epsR : ℝ) (fuel curidx : ℕ)
    (contour : List Vec2) (hidx : ¬ (curidx < contour.length + 1)) :
    staircasePass min_dist epsR (fuel + 1) curidx contour = contour := by
  unfold staircasePass
  rw [if_pos hidx]

/-- **C9 (code bug).**  On the staircase contour `simpCexContour`, the window
at index 0 satisfies every collapse condition of the claim — `|v4 - v1| ≤
min_dist`, the middle segment `v2→v3` is vertical (direction `(0, -1)`), and
the line angles before and after are equal — yet `staircasePass` returns the
contour unchanged: the source tests the angle against `π/(3/2) = 2π/3`
instead of `3π/2` (hull.h:636), so downward-vertical staircases are never
collapsed. -/
theorem staircase_vertical_not_collapsed :
    (fleB (normSq (vsub (cget simpCexContour 3) (cget simpCexContour 0)))
        ((4 : Frac) * 4) = true ∧
     vsub (cget simpCexContour 2) (cget simpCexContour 1) = ((0 : Frac), (-1 : Frac)) ∧
     line_angle2 (cget simpCexContour 0) (cget simpCexContour 1) =
       line_angle2 (cget simpCexContour 2) (cget simpCexContour 3)) ∧
    staircasePass 4 (1 / 100) 7 0 simpCexContour = simpCexContour := by
  have hpi3 := Real.pi_gt_three
  have hpi0 := Real.pi_pos
  refine ⟨⟨by decide, by decide, ?_⟩, ?_⟩
  · unfold line_angle2
    rw [show vsub (cget simpCexContour 1) (cget simpCexContour 0) =
          ((1 : Frac), (-1 : Frac)) from by decide,
        show vsub (cget simpCexContour 3) (cget simpCexContour 2) =
          ((1 : Frac), (-1 : Frac)) from by decide]
  · -- real values of the four direction vectors
    have hv01 : vecR ((0 : Frac), (-1 : Frac)) = ((0 : ℝ), (-1 : ℝ)) := by
      rw [show ((0 : Frac), (-1 : Frac)) = ((⟨0, 1⟩ : Frac), (⟨-1, 1⟩ : Frac)) from by decide]
      show (Frac.toR ⟨0, 1⟩, Frac.toR ⟨-1, 1⟩) = ((0 : ℝ), (-1 : ℝ))
      rw [toR_int_den_one, toR_int_den_one]
      norm_num
    have hv11 : vecR ((1 : Frac), (-1 : Frac)) = ((1 : ℝ), (-1 : ℝ)) := by
      rw [show ((1 : Frac), (-1 : Frac)) = ((⟨1, 1⟩ : Frac), (⟨-1, 1⟩ : Frac)) from by decide]
      show (Frac.toR ⟨1, 1⟩, Frac.toR ⟨-1, 1⟩) = ((1 : ℝ), (-1 : ℝ))
      rw [toR_int_den_one, toR_int_den_one]
      norm_num
    have hv03 : vecR ((0 : Frac), (3 : Frac)) = ((0 : ℝ), (3 : ℝ)) := by
      rw [show ((0 : Frac), (3 : Frac)) = ((⟨0, 1⟩ : Frac), (⟨3, 1⟩ : Frac)) from by decide]
      show (Frac.toR ⟨0, 1⟩, Frac.toR ⟨3, 1⟩) = ((0 : ℝ), (3 : ℝ))
      rw [toR_int_den_one, toR_int_den_one]
      norm_num
    have hv20 : vecR ((-2 : Frac), (0 : Frac)) = ((-2 : ℝ), (0 : ℝ)) := by
      rw [show ((-2 : Frac), (0 : Frac)) = ((⟨-2, 1⟩ : Frac), (⟨0, 1⟩ : Frac)) from by decide]
      show (Frac.toR ⟨-2, 1⟩, Frac.toR ⟨0, 1⟩) = ((-2 : ℝ), (0 : ℝ))
      rw [toR_int_den_one, toR_int_den_one]
      norm_num
    -- the four argument values
    have ha01 : Complex.arg ⟨(0 : ℝ), (-1 : ℝ)⟩ = -(Real.pi / 2) :=
      Complex.arg_eq_neg_pi_div_two_iff.mpr ⟨rfl, by norm_num⟩
    have ha03 : Complex.arg ⟨(0 : ℝ), (3 : ℝ)⟩ = Real.pi / 2 :=
      Complex.arg_eq_pi_div_two_iff.mpr ⟨rfl, by norm_num⟩
    have ha20 : Complex.arg ⟨(-2 : ℝ), (0 : ℝ)⟩ = Real.pi :=
      Complex.arg_eq_pi_iff.mpr ⟨by norm_num, rfl⟩
    have hsq2 : Real.sqrt 2 * Real.sqrt 2 = 2 := Real.mul_self_sqrt (by norm_num)
    have hsq2pos : (0 : ℝ) < Real.sqrt 2 := Real.sqrt_pos.mpr (by norm_num)
    have harcsin : Real.arcsin (1 / Real.sqrt 2) = Real.pi / 4 := by
      have hs : Real.sin (Real.pi / 4) = 1 / Real.sqrt 2 := by
        rw [Real.sin_pi_div_four, eq_div_iff (ne_of_gt hsq2pos)]
        nlinarith [hsq2]
      rw [← hs, Real.arcsin_sin (by linarith) (by linarith)]
    have habs11 : Complex.abs ⟨(1 : ℝ), (-1 : ℝ)⟩ = Real.sqrt 2 := by
      rw [Complex.abs_apply, Complex.normSq_mk]
      norm_num
    have ha11 : Complex.arg ⟨(1 : ℝ), (-1 : ℝ)⟩ = -(Real.pi / 4) := by
      rw [Complex.arg_of_re_nonneg (by norm_num), habs11]
      show Real.arcsin (-1 / Real.sqrt 2) = -(Real.pi / 4)
      rw [neg_div, Real.arcsin_neg, harcsin]
    -- the mod_pos values
    have hm01 : mod_pos (-(Real.pi / 2)) (2 * Real.pi) = 3 * Real.pi / 2 := by
      rw [mod_pos_eq _ _ (-1) (by linarith) (by push_cast; linarith) (by push_cast; linarith)]
      push_cast
      ring
    have hm11 : mod_pos (-(Real.pi / 4)) (2 * Real.pi) = 7 * Real.pi / 4 := by
      rw [mod_pos_eq _ _ (-1) (by linarith) (by push_cast; linarith) (by push_cast; linarith)]
      push_cast
      ring
    have hm03 : mod_pos (Real.pi / 2) (2 * Real.pi) = Real.pi / 2 := by
      rw [mod_pos_eq _ _ 0 (by linarith) (by push_cast; linarith) (by push_cast; linarith)]
      push_cast
      ring
    have hm20 : mod_pos Real.pi (2 * Real.pi) = Real.pi := by
      rw [mod_pos_eq _ _ 0 (by linarith) (by push_cast; linarith) (by push_cast; linarith)]
      push_cast
      ring
    -- angle of a window, by its direction vector
    have hdir01 : ∀ a b : ℕ,
        vsub (cget simpCexContour b) (cget simpCexContour a) = ((0 : Frac), (-1 : Frac)) →
        mod_pos (line_angle2 (cget simpCexContour a) (cget simpCexContour b))
          (2 * Real.pi) = 3 * Real.pi / 2 := by
      intro a b h
      unfold line_angle2 atan2R
      rw [h, hv01, ha01, hm01]
    have hdir11 : ∀ a b : ℕ,
        vsub (cget simpCexContour b) (cget simpCexContour a) = ((1 : Frac), (-1 : Frac)) →
        mod_pos (line_angle2 (cget simpCexContour a) (cget simpCexContour b))
          (2 * Real.pi) = 7 * Real.pi / 4 := by
      intro a b h
      unfold line_angle2 atan2R
      rw [h, hv11, ha11, hm11]
    have hdir03 : ∀ a b : ℕ,
        vsub (cget simpCexContour b) (cget simpCexContour a) = ((0 : Frac), (3 : Frac)) →
        mod_pos (line_angle2 (cget simpCexContour a) (cget simpCexContour b))
          (2 * Real.pi) = Real.pi / 2 := by
      intro a b h
      unfold line_angle2 atan2R
      rw [h, hv03, ha03, hm03]
    have hdir20 : ∀ a b : ℕ,
        vsub (cget simpCexContour b) (cget simpCexContour a) = ((-2 : Frac), (0 : Frac)) →
        mod_pos (line_angle2 (cget simpCexContour a) (cget simpCexContour b))
          (2 * Real.pi) = Real.pi := by
      intro a b h
      unfold line_angle2 atan2R
      rw [h, hv20, ha20, hm20]
    -- horizontal/vertical tests
    have hnothv32 : ¬ IsHV (3 * Real.pi / 2) (1 / 100) := by
      intro h
      unfold IsHV at h
      rcases h with h | h | h | h <;> rw [abs_le] at h <;> rcases h with ⟨h1, h2⟩ <;>
        nlinarith [hpi3]
    have hnothv74 : ¬ IsHV (7 * Real.pi / 4) (1 / 100) := by
      intro h
      unfold IsHV at h
      rcases h with h | h | h | h <;> rw [abs_le] at h <;> rcases h with ⟨h1, h2⟩ <;>
        nlinarith [hpi3]
    have hishv_pi2 : IsHV (Real.pi / 2) (1 / 100) := by
      unfold IsHV
      refine Or.inr (Or.inr (Or.inl ?_))
      norm_num
    have hishv_pi : IsHV Real.pi (1 / 100) := by
      unfold IsHV
      refine Or.inr (Or.inl ?_)
      norm_num
    -- the six windows
    rw [staircase_step_not_hv 4 (1 / 100) 6 0 simpCexContour (by decide) (by decide)
        (by rw [hdir01 1 2 (by decide)]; exact hnothv32)]
    rw [staircase_step_not_hv 4 (1 / 100) 5 1 simpCexContour (by decide) (by decide)
        (by rw [hdir11 2 3 (by decide)]; exact hnothv74)]
    rw [staircase_step_angle_mismatch 4 (1 / 100) 4 2 simpCexContour (by decide) (by decide)
        (by rw [hdir03 3 4 (by decide)]; exact hishv_pi2)
        (by rw [hdir11 2 3 (by decide), hdir20 4 5 (by decide)]
            rw [abs_le]
            push_neg
            intro h1
            nlinarith [hpi3])]
    rw [staircase_step_angle_mismatch 4 (1 / 100) 3 3 simpCexContour (by decide) (by decide)
        (by rw [hdir20 4 5 (by decide)]; exact hishv_pi)
        (by rw [hdir03 3 4 (by decide), hdir11 5 6 (by decide)]
            rw [abs_le]
            push_neg
            intro h1
            nlinarith [hpi3])]
    rw [staircase_step_not_hv 4 (1 / 100) 2 4 simpCexContour (by decide) (by decide)
        (by rw [hdir11 5 6 (by decide)]; exact hnothv74)]
    rw [staircase_step_not_hv 4 (1 / 100) 1 5 simpCexContour (by decide) (by decide)
        (by rw [hdir01 6 7 (by decide)]; exact hnothv32)]
    exact staircase_step_done 4 (1 / 100) 0 6 simpCexContour (by decide)

/-- One `convex_split` level with no concave corner. -/
theorem convex_split_step_none (eps : Frac) (fuel : ℕ) (poly : List Vec2)
    (hlen : ¬ (poly.length ≤ 3))
    (hfc : find_concave poly (Frac.toR eps) = none) :
    convex_split eps (fuel + 1) poly = some [] := by
  unfold convex_split
  rw [if_neg hlen, hfc]

/-- One `convex_split` level whose intersection hunt fails. -/
theorem convex_split_step_no_inter (eps : Frac) (fuel : ℕ) (poly : List Vec2) (c : ℕ)
    (hlen : ¬ (poly.length ≤ 3))
    (hfc : find_concave poly (Frac.toR eps) = some c)
    (hni : find_intersection poly c eps = none) :
    convex_split eps (fuel + 1) poly = some [] := by
  unfold convex_split
  rw [if_neg hlen, hfc]
  dsimp only
  rw [hni]

/-- One full `convex_split` level: split at the first concave corner and the
hunted intersection, recurse on both parts. -/
theorem convex_split_step (eps : Frac) (fuel : ℕ) (poly : List Vec2) (c idx : ℕ)
    (s1 s2 : List (List Vec2))
    (hlen : ¬ (poly.length ≤ 3))
    (hfc : find_concave poly (Frac.toR eps) = some c)
    (hni : find_intersection poly c eps = some idx)
    (h1 : convex_split eps fuel (collectPoly poly idx (c + 1)) = some s1)
    (h2 : convex_split eps fuel (collectPoly poly (c + 1) idx) = some s2) :
    convex_split eps (fuel + 1) poly = some
      ((if s1.isEmpty then [collectPoly poly idx (c + 1)]
        else s1.filter (fun p => 3 ≤ p.length)) ++
       (if s2.isEmpty then [collectPoly poly (c + 1) idx]
        else s2.filter (fun p => 3 ≤ p.length))) := by
  unfold convex_split
  rw [if_neg hlen, hfc]
  dsimp only
  rw [hni]
  dsimp only
  rw [h1]
  simp only [Option.bind_eq_bind, Option.some_bind]
  rw [h2]
  simp only [Option.bind_eq_bind, Option.some_bind]

/-- **C3 (code bug).**  On the simple counterclockwise staircase polygon
`csplitCexInput`, `convex_split` returns four polygons of which the last,
`csplitBadQuad`, is not convex: its first corner turns by more than `π` (the
intersection hunt of hull.h:1967-2005 accepts an intersection on the reverse
extension of the concave ray, so a split line can cut through the outside of
the polygon). -/
theorem convex_split_emits_reflex_polygon :
    convex_split (mkF 1 1000000) 3 csplitCexInput =
      some [[((6 : Frac), (8 : Frac)), (0, 8), (0, 0), (1, 0)], [((1 : Frac), (0 : Frac)), (5, -4), (6, -4), (6, 8)], [((1 : Frac), (0 : Frac)), (1, -5), (4, -5), (4, 0)], csplitBadQuad] ∧
    Real.pi < corner_angle (cget csplitBadQuad 0) (cget csplitBadQuad 1)
      (cget csplitBadQuad 2) := by
  constructor
  · -- the four leaf polygons
    have hfq1 : find_concave [((6 : Frac), (8 : Frac)), (0, 8), (0, 0), (1, 0)] (Frac.toR (mkF 1 1000000)) = none := by
      apply find_concave_none
      intro i hi
      have h4 : i = 0 ∨ i = 1 ∨ i = 2 ∨ i = 3 := by
        simp only [List.length_cons, List.length_nil] at hi
        omega
      rcases h4 with rfl | rfl | rfl | rfl <;>
        exact not_reflex_of_crossZ_pos _ _ _ (mkF 1 1000000) (by decide) (by decide) (by decide) (by decide) (by decide)
    have hfq2 : find_concave [((1 : Frac), (0 : Frac)), (5, -4), (6, -4), (6, 8)] (Frac.toR (mkF 1 1000000)) = none := by
      apply find_concave_none
      intro i hi
      have h4 : i = 0 ∨ i = 1 ∨ i = 2 ∨ i = 3 := by
        simp only [List.length_cons, List.length_nil] at hi
        omega
      rcases h4 with rfl | rfl | rfl | rfl <;>
        exact not_reflex_of_crossZ_pos _ _ _ (mkF 1 1000000) (by decide) (by decide) (by decide) (by decide) (by decide)
    have hfq3 : find_concave [((1 : Frac), (0 : Frac)), (1, -5), (4, -5), (4, 0)] (Frac.toR (mkF 1 1000000)) = none := by
      apply find_concave_none
      intro i hi
      have h4 : i = 0 ∨ i = 1 ∨ i = 2 ∨ i = 3 := by
        simp only [List.length_cons, List.length_nil] at hi
        omega
      rcases h4 with rfl | rfl | rfl | rfl <;>
        exact not_reflex_of_crossZ_pos _ _ _ (mkF 1 1000000) (by decide) (by decide) (by decide) (by decide) (by decide)
    have hq1 : convex_split (mkF 1 1000000) 1 [((6 : Frac), (8 : Frac)), (0, 8), (0, 0), (1, 0)] = some [] :=
      convex_split_step_none _ 0 _ (by decide) hfq1
    have hq2 : convex_split (mkF 1 1000000) 1 [((1 : Frac), (0 : Frac)), (5, -4), (6, -4), (6, 8)] = some [] :=
      convex_split_step_none _ 0 _ (by decide) hfq2
    have hq3 : convex_split (mkF 1 1000000) 1 [((1 : Frac), (0 : Frac)), (1, -5), (4, -5), (4, 0)] = some [] :=
      convex_split_step_none _ 0 _ (by decide) hfq3
    have hfq4 : find_concave csplitBadQuad (Frac.toR (mkF 1 1000000)) = some 0 :=
      find_concave_some _ _ 0 (by decide)
        (reflex_of_crossZ_neg _ _ _ (mkF 1 1000000) (mkF 1 100) (by decide) (by decide) (by decide) (by decide) (by decide) (by decide) (by decide) (by decide))
        (fun i hi => absurd hi (Nat.not_lt_zero i))
    have hq4 : convex_split (mkF 1 1000000) 1 csplitBadQuad = some [] :=
      convex_split_step_no_inter _ 0 _ 0 (by decide) hfq4 (by decide)
    -- the two middle hexagons
    have hfA : find_concave [((5 : Frac), (-4 : Frac)), (6, -4), (6, 8), (0, 8), (0, 0), (1, 0)] (Frac.toR (mkF 1 1000000)) = some 4 := by
      apply find_concave_some _ _ 4 (by decide)
      · exact reflex_of_crossZ_neg _ _ _ (mkF 1 1000000) (mkF 1 100) (by decide) (by decide) (by decide) (by decide) (by decide) (by decide) (by decide) (by decide)
      · intro i hi
        have h4 : i = 0 ∨ i = 1 ∨ i = 2 ∨ i = 3 := by omega
        rcases h4 with rfl | rfl | rfl | rfl <;>
          exact not_reflex_of_crossZ_pos _ _ _ (mkF 1 1000000) (by decide) (by decide) (by decide) (by decide) (by decide)
    have hA : convex_split (mkF 1 1000000) 2 [((5 : Frac), (-4 : Frac)), (6, -4), (6, 8), (0, 8), (0, 0), (1, 0)] = some [[((6 : Frac), (8 : Frac)), (0, 8), (0, 0), (1, 0)], [((1 : Frac), (0 : Frac)), (5, -4), (6, -4), (6, 8)]] := by
      have hstep := convex_split_step (mkF 1 1000000) 1 [((5 : Frac), (-4 : Frac)), (6, -4), (6, 8), (0, 8), (0, 0), (1, 0)] 4 2 [] []
        (by decide) hfA (by decide)
        (by rw [show collectPoly [((5 : Frac), (-4 : Frac)), (6, -4), (6, 8), (0, 8), (0, 0), (1, 0)] 2 (4 + 1) = [((6 : Frac), (8 : Frac)), (0, 8), (0, 0), (1, 0)] from by decide]
            exact hq1)
        (by rw [show collectPoly [((5 : Frac), (-4 : Frac)), (6, -4), (6, 8), (0, 8), (0, 0), (1, 0)] (4 + 1) 2 = [((1 : Frac), (0 : Frac)), (5, -4), (6, -4), (6, 8)] from by decide]
            exact hq2)
      rw [hstep]
      decide
    have hfB : find_concave [((1 : Frac), (0 : Frac)), (1, -5), (4, -5), (4, 0), (5, 0), (5, -4)] (Frac.toR (mkF 1 1000000)) = some 2 := by
      apply find_concave_some _ _ 2 (by decide)
      · exact reflex_of_crossZ_neg _ _ _ (mkF 1 1000000) (mkF 1 100) (by decide) (by decide) (by decide) (by decide) (by decide) (by decide) (by decide) (by decide)
      · intro i hi
        have h2 : i = 0 ∨ i = 1 := by omega
        rcases h2 with rfl | rfl <;>
          exact not_reflex_of_crossZ_pos _ _ _ (mkF 1 1000000) (by decide) (by decide) (by decide) (by decide) (by decide)
    have hB : convex_split (mkF 1 1000000) 2 [((1 : Frac), (0 : Frac)), (1, -5), (4, -5), (4, 0), (5, 0), (5, -4)] = some [[((1 : Frac), (0 : Frac)), (1, -5), (4, -5), (4, 0)], csplitBadQuad] := by
      have hstep := convex_split_step (mkF 1 1000000) 1 [((1 : Frac), (0 : Frac)), (1, -5), (4, -5), (4, 0), (5, 0), (5, -4)] 2 0 [] []
        (by decide) hfB (by decide)
        (by rw [show collectPoly [((1 : Frac), (0 : Frac)), (1, -5), (4, -5), (4, 0), (5, 0), (5, -4)] 0 (2 + 1) = [((1 : Frac), (0 : Frac)), (1, -5), (4, -5), (4, 0)] from by decide]
            exact hq3)
        (by rw [show collectPoly [((1 : Frac), (0 : Frac)), (1, -5), (4, -5), (4, 0), (5, 0), (5, -4)] (2 + 1) 0 = csplitBadQuad from by decide]
            exact hq4)
      rw [hstep]
      decide
    -- the root polygon
    have hfc0 : find_concave csplitCexInput (Frac.toR (mkF 1 1000000)) = some 0 :=
      find_concave_some _ _ 0 (by decide)
        (reflex_of_crossZ_neg _ _ _ (mkF 1 1000000) (mkF 1 100) (by decide) (by decide) (by decide) (by decide) (by decide) (by decide) (by decide) (by decide))
        (fun i hi => absurd hi (Nat.not_lt_zero i))
    have hroot := convex_split_step (mkF 1 1000000) 2 csplitCexInput 0 6
      [[((6 : Frac), (8 : Frac)), (0, 8), (0, 0), (1, 0)], [((1 : Frac), (0 : Frac)), (5, -4), (6, -4), (6, 8)]] [[((1 : Frac), (0 : Frac)), (1, -5), (4, -5), (4, 0)], csplitBadQuad]
      (by decide) hfc0 (by decide)
      (by rw [show collectPoly csplitCexInput 6 (0 + 1) = [((5 : Frac), (-4 : Frac)), (6, -4), (6, 8), (0, 8), (0, 0), (1, 0)] from by decide]
          exact hA)
      (by rw [show collectPoly csplitCexInput (0 + 1) 6 = [((1 : Frac), (0 : Frac)), (1, -5), (4, -5), (4, 0), (5, 0), (5, -4)] from by decide]
          exact hB)
    rw [hroot]
    decide
  · exact gt_pi_of_crossZ_neg _ _ _ (by decide) (by decide) (by decide)

/-- The square-free margin test used by `delaunay_property_holds` matches the
square-root form: over nonnegative `d2` and `e`,
`0 < r2 - d2 - e² ∧ 4·d2·e² < (r2 - d2 - e²)²  ↔  √d2 + e < √r2`. -/
theorem sqrt_margin_iff {d2 r2 e : ℝ} (hd2 : 0 ≤ d2) (he : 0 ≤ e) :
    (0 < r2 - d2 - e * e ∧
      4 * d2 * (e * e) < (r2 - d2 - e * e) * (r2 - d2 - e * e)) ↔
    Real.sqrt d2 + e < Real.sqrt r2 := by
  have hsd : 0 ≤ Real.sqrt d2 := Real.sqrt_nonneg d2
  have hsd2 : Real.sqrt d2 * Real.sqrt d2 = d2 := Real.mul_self_sqrt hd2
  constructor
  · rintro ⟨hk, hk2⟩
    have hr2 : 0 ≤ r2 := by nlinarith
    have hsr2 : Real.sqrt r2 * Real.sqrt r2 = r2 := Real.mul_self_sqrt hr2
    have hsr : 0 ≤ Real.sqrt r2 := Real.sqrt_nonneg r2
    have h2e : 2 * e * Real.sqrt d2 < r2 - d2 - e * e := by
      nlinarith [mul_nonneg (mul_nonneg (by norm_num : (0 : ℝ) ≤ 2) he) hsd]
    nlinarith [h2e, hsd2, hsr2, hsr, hsd, he]
  · intro h
    have hsrpos : 0 < Real.sqrt r2 := lt_of_le_of_lt (by positivity) h
    have hr2 : 0 < r2 := Real.sqrt_pos.mp hsrpos
    have hsr2 : Real.sqrt r2 * Real.sqrt r2 = r2 := Real.mul_self_sqrt (le_of_lt hr2)
    have hsq : (Real.sqrt d2 + e) * (Real.sqrt d2 + e) < r2 := by
      nlinarith [h, hsrpos, hsd, he, hsr2]
    constructor
    · nlinarith [hsq, hsd2, mul_nonneg he hsd]
    · nlinarith [hsq, hsd2, mul_nonneg he hsd]

/-- The Boolean margin test of `delaunay_property_holds`, read over the
reals: it holds exactly when the distance plus `eps` stays below the radius. -/
theorem delaunay_margin_test_iff (dSq radSq eps : Frac)
    (hd : 0 < dSq.den) (hr : 0 < radSq.den) (he : 0 < eps.den)
    (hd2 : 0 ≤ dSq.toR) (heps : 0 ≤ eps.toR) :
    (fltB 0 (radSq - dSq - eps * eps) &&
      fltB (4 * dSq * (eps * eps))
        ((radSq - dSq - eps * eps) * (radSq - dSq - eps * eps))) = true ↔
    Real.sqrt dSq.toR + eps.toR < Real.sqrt radSq.toR := by
  have h4 : 0 < (4 : Frac).den := by decide
  have hee : 0 < (eps * eps).den := mul_den_pos he he
  have hk_den : 0 < (radSq - dSq - eps * eps).den :=
    sub_den_pos (sub_den_pos hr hd) hee
  have h4den : 0 < ((4 : Frac) * dSq * (eps * eps)).den :=
    mul_den_pos (mul_den_pos h4 hd) hee
  have h4R : (4 : Frac).toR = (4 : ℝ) := by
    rw [show (4 : Frac) = (⟨4, 1⟩ : Frac) from rfl, toR_int_den_one]
    norm_num
  rw [Bool.and_eq_true, fltB_toR (by decide) hk_den,
    fltB_toR h4den (mul_den_pos hk_den hk_den), toR_zero,
    toR_mul hk_den hk_den, toR_sub (sub_den_pos hr hd) hee, toR_sub hr hd,
    toR_mul he he, toR_mul (mul_den_pos h4 hd) hee, toR_mul h4 hd, toR_mul he he,
    h4R]
  exact sqrt_margin_iff hd2 heps

end Geo
